import Mathlib

/-!
Verification of the bittorrent client core (bencode codec, torrent metainfo,
tracker request building, peer wire protocol) against its specification.

Bytes are modelled as lists of natural numbers (one `Nat` per byte).  Fallible
Rust code is modelled with explicit result types; a Rust `panic!` (for example
an out-of-bounds slice index) is the `panic` constructor, distinct from an
`anyhow` error, which is the `error` constructor.  Recursive parsers carry a
fuel argument for termination; the top-level entry points supply a fuel budget
that is proven sufficient (`from_bytes_no_outOfFuel`), so the fueled functions
agree with the original unbounded recursion on every input.
-/

namespace BitTorrent

/-- Raw bytes: one natural number per byte. -/
abbrev Bytes := List Nat

/-- ASCII decimal digit test (`b'0'..=b'9'`). -/
def isDigit (b : Nat) : Bool := 48 ≤ b && b ≤ 57

/-- Lexicographic byte comparison, shorter-prefix-first: the `Ord` instance of
Rust byte slices, used by `BTreeMap<BencodeByteString, _>`. -/
def ltBytes : Bytes → Bytes → Bool
  | [], [] => false
  | [], _ :: _ => true
  | _ :: _, [] => false
  | a :: as, b :: bs => if a < b then true else if b < a then false else ltBytes as bs

/-- Value of a string of ASCII digits, most significant first. -/
def digitsToNat (ds : Bytes) : Nat := ds.foldl (fun acc d => acc * 10 + (d - 48)) 0

/-- ASCII decimal rendering of a natural number (no sign, minimal digits). -/
def natToDigits (n : Nat) : Bytes :=
  if _h : n < 10 then [48 + n] else natToDigits (n / 10) ++ [48 + n % 10]
termination_by n
decreasing_by exact Nat.div_lt_self (by omega) (by omega)

/-- ASCII decimal rendering of an integer, as produced by Rust `i64` display:
a leading `-` for negative values, minimal digits. -/
def intToAscii (n : Int) : Bytes :=
  if n < 0 then 45 :: natToDigits n.natAbs else natToDigits n.toNat

/-- Digits-only part of Rust integer parsing: requires a non-empty all-digit
string; yields its value.  Sign handling and range checks are at the callers. -/
def parseDigits (ds : Bytes) : Option Nat :=
  if ds.isEmpty then none
  else if ds.all isDigit then some (digitsToNat ds) else none

/-- Keep a parsed value only when it is below `bound` (Rust integer parsing
fails on overflow). -/
def clampNatBelow (bound : Nat) (o : Option Nat) : Option Nat :=
  match o with
  | some v => if v < bound then some v else none
  | none => none

/-- Negative half of `i64` parsing: magnitude at most `2^63`. -/
def negFromDigits (o : Option Nat) : Option Int :=
  match o with
  | some v => if v ≤ 2 ^ 63 then some (-(v : Int)) else none
  | none => none

/-- Non-negative half of `i64` parsing: value below `2^63`. -/
def posFromDigits (o : Option Nat) : Option Int :=
  match o with
  | some v => if v < 2 ^ 63 then some (v : Int) else none
  | none => none

/-- Model of `str::parse::<usize>` applied to raw bytes (`from_utf8` followed
by `parse`): optional leading `+`, non-empty digits, value below `2^64`.  Any
failure (bad UTF-8, stray character, empty, overflow) is `none`; the Rust code
only distinguishes failure from success via `?`, not the message. -/
def parseAsciiNat (s : Bytes) : Option Nat :=
  match s with
  | [] => none
  | b :: t => clampNatBelow (2 ^ 64) (if b = 43 then parseDigits t else parseDigits (b :: t))

/-- Model of `str::parse::<i64>` applied to raw bytes: optional leading `+` or
`-`, non-empty digits, value within the `i64` range. -/
def parseAsciiInt (s : Bytes) : Option Int :=
  match s with
  | [] => none
  | b :: t =>
    if b = 45 then negFromDigits (parseDigits t)
    else posFromDigits (parseDigits (if b = 43 then t else b :: t))

/-- Index of the first occurrence of byte `b`, the model of
`input.iter().position(|x| *x == b)`. -/
def firstIdxOf (b : Nat) : Bytes → Option Nat
  | [] => none
  | x :: xs => if x = b then some 0 else (firstIdxOf b xs).map (· + 1)

/-- The bencode value type of `src/bencode.rs`.  A `Dictionary` is carried as
its `BTreeMap` iteration order: a list of entries with strictly ascending keys,
maintained by `insertSorted`. -/
inductive BencodeValue where
  | byteString (bs : Bytes)
  | integer (n : Int)
  | list (values : List BencodeValue)
  | dictionary (entries : List (Bytes × BencodeValue))
deriving Repr

/-- Model of `BTreeMap::insert` on the sorted entry list: place `(k, v)` at its
ordered position, replacing the value when the key is already present. -/
def insertSorted (m : List (Bytes × BencodeValue)) (k : Bytes) (v : BencodeValue) :
    List (Bytes × BencodeValue) :=
  match m with
  | [] => [(k, v)]
  | (k0, v0) :: rest =>
    if ltBytes k k0 then (k, v) :: (k0, v0) :: rest
    else if k = k0 then (k, v) :: rest
    else (k0, v0) :: insertSorted rest k v

/-- Outcome of `BencodeValue::from_bytes`: a parsed value and the unread
suffix, an `anyhow` error, or a Rust panic.  `outOfFuel` is an artifact of the
fueled model; `from_bytes_no_outOfFuel` proves the budget used by `from_bytes`
never reaches it. -/
inductive DecodeResult where
  | panic
  | outOfFuel
  | error (msg : String)
  | ok (rest : Bytes) (value : BencodeValue)
deriving Repr

/-- The byte-string arm of `from_bytes` (entered when the leading byte is a
digit): find `:`, parse the length as `usize`, check the remaining input, and
slice out the string.  Parse failures are reported as `error "invalid number"`;
the Rust code propagates the parse error's own message, but no caller inspects
it. -/
def parseByteStringBranch (input : Bytes) : DecodeResult :=
  match firstIdxOf 58 input with
  | none => .error "premature end of byte string"
  | some d =>
    match parseAsciiNat (input.take d) with
    | none => .error "invalid number"
    | some len =>
      if input.length < d + 1 + len then .error "premature end of byte string"
      else .ok (input.drop (d + 1 + len)) (.byteString ((input.drop (d + 1)).take len))

/-- The integer arm of `from_bytes` (entered when the leading byte is `i`):
find `e` and parse the bytes strictly between as an `i64`. -/
def parseIntegerBranch (input : Bytes) : DecodeResult :=
  match firstIdxOf 101 input with
  | none => .error "premature end of integer"
  | some e =>
    match parseAsciiInt ((input.take e).drop 1) with
    | none => .error "invalid number"
    | some n => .ok (input.drop (e + 1)) (.integer n)

mutual

/-- Fueled model of `BencodeValue::from_bytes`.  `input[0]` on empty input is a
panic.  All recursive calls decrement the fuel. -/
def fromBytesFuel (fuel : Nat) (input : Bytes) : DecodeResult :=
  match fuel with
  | 0 => .outOfFuel
  | f + 1 =>
    match input with
    | [] => .panic
    | b :: _ =>
      if isDigit b then parseByteStringBranch input
      else if b = 105 then parseIntegerBranch input
      else if b = 108 then decodeListFuel f (input.drop 1) []
      else if b = 100 then decodeDictFuel f (input.drop 1) []
      else .error "invalid bencode value"

/-- The list-reading loop of `from_bytes`: `acc` holds the values read so far
in reverse. -/
def decodeListFuel (fuel : Nat) (input : Bytes) (acc : List BencodeValue) : DecodeResult :=
  match fuel with
  | 0 => .outOfFuel
  | f + 1 =>
    match input with
    | [] => .error "premature end of list"
    | b :: rest =>
      if b = 101 then .ok rest (.list acc.reverse)
      else
        match fromBytesFuel f input with
        | .ok rest' v => decodeListFuel f rest' (v :: acc)
        | r => r

/-- The dictionary-reading loop of `from_bytes`: `acc` is the `BTreeMap` built
so far, extended with `insertSorted` for each parsed pair. -/
def decodeDictFuel (fuel : Nat) (input : Bytes) (acc : List (Bytes × BencodeValue)) :
    DecodeResult :=
  match fuel with
  | 0 => .outOfFuel
  | f + 1 =>
    match input with
    | [] => .error "premature end of dictionary"
    | b :: rest =>
      if b = 101 then .ok rest (.dictionary acc)
      else
        match fromBytesFuel f input with
        | .ok rest' key =>
          match fromBytesFuel f rest' with
          | .ok rest'' v =>
            match key with
            | .byteString kbs => decodeDictFuel f rest'' (insertSorted acc kbs v)
            | _ => .error "non-byte string dictionary key"
          | r => r
        | r => r

end

/-- Model of `BencodeValue::from_bytes`, with a fuel budget proven sufficient
for every input (`from_bytes_no_outOfFuel`). -/
def BencodeValue.from_bytes (input : Bytes) : DecodeResult :=
  fromBytesFuel (2 * input.length + 2) input

mutual

/-- Modelled from the spec: `BencodeValue::to_bytes` is called at
`src/torrent.rs:98` but its definition is not part of the provided sources.
Per the spec's `encode` operation: integers are `i<minimal decimal>e`, byte
strings are `<len>:<bytes>`, lists are `l<items>e`, dictionaries are
`d<entries>e` with keys in ascending raw-byte order.  Dictionary values in
this embedding are carried in `BTreeMap` iteration order (ascending keys), so
emitting entries in list order is the ascending-key emission the spec
requires. -/
def BencodeValue.to_bytes : BencodeValue → Bytes
  | .byteString bs => natToDigits bs.length ++ 58 :: bs
  | .integer n => 105 :: (intToAscii n ++ [101])
  | .list values => 108 :: (toBytesValues values ++ [101])
  | .dictionary entries => 100 :: (toBytesEntries entries ++ [101])

/-- Concatenated encodings of the elements of a list value. -/
def toBytesValues : List BencodeValue → Bytes
  | [] => []
  | v :: rest => BencodeValue.to_bytes v ++ toBytesValues rest

/-- Concatenated encodings of dictionary entries, each key emitted as a byte
string followed by its value. -/
def toBytesEntries : List (Bytes × BencodeValue) → Bytes
  | [] => []
  | (k, v) :: rest =>
    BencodeValue.to_bytes (.byteString k) ++ BencodeValue.to_bytes v ++ toBytesEntries rest

end

/-- Does `k` precede the first key of `m` (vacuously true for an empty `m`)? -/
def keyLtHead (k : Bytes) : List (Bytes × BencodeValue) → Bool
  | [] => true
  | (k0, _) :: _ => ltBytes k k0

/-- Are the keys of an entry list strictly ascending in raw-byte order? -/
def keysSortedAsc : List (Bytes × BencodeValue) → Bool
  | [] => true
  | (k, _) :: rest => keyLtHead k rest && keysSortedAsc rest

mutual

/-- Well-formedness of a decoded value: integers fit in `i64`, byte-string
lengths fit in `usize`, and dictionary entry lists are strictly ascending (the
`BTreeMap` invariant).  Every value produced by `from_bytes` satisfies it. -/
def wfValue : BencodeValue → Bool
  | .byteString bs => decide (bs.length < 2 ^ 64)
  | .integer n => decide (-(2 ^ 63) ≤ n) && decide (n < 2 ^ 63)
  | .list values => wfValues values
  | .dictionary entries => wfEntries entries

/-- All elements well-formed. -/
def wfValues : List BencodeValue → Bool
  | [] => true
  | v :: rest => wfValue v && wfValues rest

/-- Keys encodable and strictly ascending, values well-formed. -/
def wfEntries : List (Bytes × BencodeValue) → Bool
  | [] => true
  | (k, v) :: rest => decide (k.length < 2 ^ 64) && wfValue v && keyLtHead k rest && wfEntries rest

end

/-- Keys encodable and values well-formed, with no ordering requirement:
what holds of an arbitrary entry sequence fed to the dictionary loop. -/
def wfEntryVals : List (Bytes × BencodeValue) → Bool
  | [] => true
  | (k, v) :: rest => decide (k.length < 2 ^ 64) && wfValue v && wfEntryVals rest

/-- First value stored under key `k` in an entry list (association-list scan;
on the sorted lists built by `insertSorted` keys are unique, so this is the
dictionary lookup). -/
def lookupEntry (m : List (Bytes × BencodeValue)) (k : Bytes) : Option BencodeValue :=
  match m with
  | [] => none
  | (k0, v0) :: rest => if k = k0 then some v0 else lookupEntry rest k

/-- Value of the last occurrence of key `k` in an entry sequence. -/
def lastOccurrence (entries : List (Bytes × BencodeValue)) (k : Bytes) : Option BencodeValue :=
  match entries with
  | [] => none
  | (k0, v0) :: rest =>
    match lastOccurrence rest k with
    | some v => some v
    | none => if k = k0 then some v0 else none

/-- Hex digit (lowercase) for a value below 16, as emitted by the `hex` crate. -/
def hexDigit (n : Nat) : Nat := if n < 10 then 48 + n else 87 + n

/-- Concatenation of `f` over a list (explicit flat-map, kept local so its
equations are under our control). -/
def concatMapB (f : Nat → Bytes) : List Nat → Bytes
  | [] => []
  | x :: xs => f x ++ concatMapB f xs

/-- Model of `hex::encode`: two lowercase hex digits per byte. -/
def hexEncode (bs : Bytes) : Bytes := concatMapB (fun b => [hexDigit (b / 16), hexDigit (b % 16)]) bs

/-- The typed metainfo view (`struct TorrentInfo`).  `length` and
`piece_length` are `usize`, `name` is the UTF-8 bytes of the `String`,
`pieces` the raw concatenated piece digests. -/
structure TorrentInfo where
  length : Nat
  name : Bytes
  piece_length : Nat
  pieces : Bytes

/-- The parsed torrent (`struct Torrent`); the announce URL is kept as its
byte text, its structure plays no role in the verified core. -/
structure Torrent where
  announce : Bytes
  info : TorrentInfo

/-- Rust `usize as i64`: reinterpret the 64-bit pattern as signed. -/
def usizeAsI64 (n : Nat) : Int :=
  if n % 2 ^ 64 < 2 ^ 63 then (n % 2 ^ 64 : Nat) else (n % 2 ^ 64 : Nat) - 2 ^ 64

/-- ASCII bytes of `"length"`. -/
def lengthKey : Bytes := [108, 101, 110, 103, 116, 104]

/-- ASCII bytes of `"name"`. -/
def nameKey : Bytes := [110, 97, 109, 101]

/-- ASCII bytes of `"piece length"`. -/
def pieceLengthKey : Bytes := [112, 105, 101, 99, 101, 32, 108, 101, 110, 103, 116, 104]

/-- ASCII bytes of `"pieces"`. -/
def piecesKey : Bytes := [112, 105, 101, 99, 101, 115]

/-- The four-entry array built inside `Torrent::info_hash`, in the order it is
written in the source (it is then collected into a `BTreeMap`). -/
def infoHashArray (t : Torrent) : List (Bytes × BencodeValue) :=
  [(lengthKey, .integer (usizeAsI64 t.info.length)),
   (nameKey, .byteString t.info.name),
   (pieceLengthKey, .integer (usizeAsI64 t.info.piece_length)),
   (piecesKey, .byteString t.info.pieces)]

/-- Model of `Torrent::info_hash`: collect the four metainfo entries into a
`BTreeMap`, bencode it with `to_bytes`, hash, and hex-encode the digest.  The
SHA-1 function comes from the external `sha1` crate and is a parameter of the
model. -/
def Torrent.info_hash (sha1 : Bytes → Bytes) (t : Torrent) : Bytes :=
  hexEncode (sha1 (BencodeValue.to_bytes (.dictionary
    ((infoHashArray t).foldl (fun m p => insertSorted m p.1 p.2) []))))

/-- The dictionary described by the spec's info-hash rule: exactly the keys
`length`, `name`, `piece length`, `pieces`, listed in ascending raw-byte
order, with values taken from the metainfo view. -/
def specInfoEntries (t : Torrent) : List (Bytes × BencodeValue) :=
  [(lengthKey, .integer (usizeAsI64 t.info.length)),
   (nameKey, .byteString t.info.name),
   (pieceLengthKey, .integer (usizeAsI64 t.info.piece_length)),
   (piecesKey, .byteString t.info.pieces)]

/-- Model of `TorrentInfo::piece_hashes`: the `pieces` field sliced into
20-byte windows, each hex-encoded. -/
def TorrentInfo.piece_hashes (info : TorrentInfo) : List Bytes :=
  (List.range (info.pieces.length / 20)).map
    (fun i => hexEncode ((info.pieces.drop (i * 20)).take 20))

/-- The `info_hash` query value built by `get_peers`
(`src/tracker.rs:49-54`): for `i` in `0..20`, push `%` (byte 37) and the hex
characters at positions `2*i` and `2*i+1` of the hex info-hash string.  In the
program the string always has 40 characters, so the `getD` default is never
used (the source `unwrap` cannot fire). -/
def urlEncodedInfoHash (infoHashHex : Bytes) : Bytes :=
  concatMapB (fun i => [37, infoHashHex.getD (2 * i) 0, infoHashHex.getD (2 * i + 1) 0])
    (List.range 20)

/-- Percent-encoding of raw digest bytes as the spec requires: each byte
becomes `%` followed by that byte's two hex digits. -/
def percentEncodeBytes (digest : Bytes) : Bytes :=
  concatMapB (fun b => [37, hexDigit (b / 16), hexDigit (b % 16)]) digest

/-- The peer wire messages (`enum PeerMessage`).  `u32` fields are naturals
below `2^32`. -/
inductive PeerMessage where
  | Choke
  | Unchoke
  | Interested
  | NotInterested
  | Have (index : Nat)
  | Bitfield (bytes : Bytes)
  | Request (index begin_ length : Nat)
  | Piece (index begin_ : Nat) (block : Bytes)
  | Cancel (index begin_ length : Nat)
deriving Repr, DecidableEq

/-- Big-endian 32-bit value of four bytes (`u32::from_be_bytes`). -/
def u32FromBeBytes (b0 b1 b2 b3 : Nat) : Nat := ((b0 * 256 + b1) * 256 + b2) * 256 + b3

/-- Outcome of `PeerMessage::decode`. -/
inductive PMDecodeResult where
  | panic
  | error (msg : String)
  | ok (msg : PeerMessage)
deriving Repr, DecidableEq

/-- Model of `PeerMessage::decode` (`src/peer.rs:131-176`).  `input[0]` on an
empty buffer is a panic, as is each `payload[i]` access beyond the payload's
end and the slice `payload[8..]` on a payload shorter than 8 bytes. -/
def PeerMessage.decode (input : Bytes) : PMDecodeResult :=
  match input with
  | [] => .panic
  | tag :: payload =>
    if tag = 0 then .ok .Choke
    else if tag = 1 then .ok .Unchoke
    else if tag = 2 then .ok .Interested
    else if tag = 3 then .ok .NotInterested
    else if tag = 4 then
      match payload with
      | b0 :: b1 :: b2 :: b3 :: _ => .ok (.Have (u32FromBeBytes b0 b1 b2 b3))
      | _ => .panic
    else if tag = 5 then .ok (.Bitfield payload)
    else if tag = 6 then
      match payload with
      | b0 :: b1 :: b2 :: b3 :: b4 :: b5 :: b6 :: b7 :: b8 :: b9 :: b10 :: b11 :: _ =>
        .ok (.Request (u32FromBeBytes b0 b1 b2 b3) (u32FromBeBytes b4 b5 b6 b7)
          (u32FromBeBytes b8 b9 b10 b11))
      | _ => .panic
    else if tag = 7 then
      match payload with
      | b0 :: b1 :: b2 :: b3 :: b4 :: b5 :: b6 :: b7 :: block =>
        .ok (.Piece (u32FromBeBytes b0 b1 b2 b3) (u32FromBeBytes b4 b5 b6 b7) block)
      | _ => .panic
    else if tag = 8 then
      match payload with
      | b0 :: b1 :: b2 :: b3 :: b4 :: b5 :: b6 :: b7 :: b8 :: b9 :: b10 :: b11 :: _ =>
        .ok (.Cancel (u32FromBeBytes b0 b1 b2 b3) (u32FromBeBytes b4 b5 b6 b7)
          (u32FromBeBytes b8 b9 b10 b11))
      | _ => .panic
    else .error "invalid peer message tag"

/-- Outcome of `PeerConnection::receive_message`: a decoded message plus the
unread remainder of the inbound byte stream, an error, or a panic. -/
inductive RecvResult where
  | panic
  | error (msg : String)
  | ok (msg : PeerMessage) (rest : Bytes)
deriving Repr, DecidableEq

/-- Model of `PeerConnection::receive_message` (`src/peer.rs:309-326`): read a
4-byte big-endian length prefix, read that many payload bytes, decode.  A
short read of the prefix is the mapped "connected reset by peer" error, a
short payload read is the propagated `read_exact` failure. -/
def receive_message (stream : Bytes) : RecvResult :=
  match stream with
  | l0 :: l1 :: l2 :: l3 :: rest =>
    let length := u32FromBeBytes l0 l1 l2 l3
    if rest.length < length then .error "failed to read from stream"
    else
      match PeerMessage.decode (rest.take length) with
      | .panic => .panic
      | .error m => .error m
      | .ok msg => .ok msg (rest.drop length)
  | _ => .error "connected reset by peer"

/-- Connection states (`enum PeerConnectionState`). -/
inductive PeerConnectionState where
  | Connected
  | WaitingForHandshake
  | WaitingForBitfield
  | ReadyToExpressInterest
  | WaitingForUnchoke
  | ReadyToRequest
  | GettingPieces
deriving Repr, DecidableEq

/-- Per-block progress (`enum BlockState`). -/
inductive BlockState where
  | None
  | Requested
  | Downloaded
deriving Repr, DecidableEq

/-- Fixed block size, `BLOCK_LEN = 16 * 1024`. -/
def BLOCK_LEN : Nat := 16384

/-- Pipeline window, `MAX_CONCURRENT_REQUESTS`. -/
def MAX_CONCURRENT_REQUESTS : Nat := 5

/-- Model of `div_round_up` (`src/peer.rs:495-497`). -/
def div_round_up (a b : Nat) : Nat := (a + (b - 1)) / b

/-- Modelled from the spec: `TorrentInfo::piece_count` is called from
`download` and `download_piece` but its definition is not part of the provided
sources; the spec fixes it as `ceil(length / piece_length)`. -/
def TorrentInfo.piece_count (info : TorrentInfo) : Nat :=
  div_round_up info.length info.piece_length

/-- The piece length computed at the top of `download_piece`
(`src/peer.rs:384-392`). -/
def pieceLengthFor (info : TorrentInfo) (piece_index : Nat) : Nat :=
  if piece_index = info.piece_count - 1 then
    if info.length % info.piece_length = 0 then info.piece_length
    else info.length % info.piece_length
  else info.piece_length

/-- The per-piece constants of one `download_piece` call. -/
structure DPConfig where
  piece_index : Nat
  piece_length : Nat

/-- `block_count = div_round_up(piece_length, BLOCK_LEN)`. -/
def DPConfig.block_count (cfg : DPConfig) : Nat := div_round_up cfg.piece_length BLOCK_LEN

/-- `last_block_len` as computed in `download_piece`. -/
def DPConfig.last_block_len (cfg : DPConfig) : Nat :=
  if cfg.piece_length % BLOCK_LEN = 0 then BLOCK_LEN else cfg.piece_length % BLOCK_LEN

/-- The mutable state of the `download_piece` loop: the connection state, the
per-block states, and the piece buffer. -/
structure DPState where
  connState : PeerConnectionState
  blockStates : List BlockState
  piece : Bytes

/-- The state `download_piece` starts its loop from once the block bookkeeping
is initialised (all blocks `None`, zeroed piece buffer). -/
def DPConfig.initState (cfg : DPConfig) (conn : PeerConnectionState) : DPState :=
  DPState.mk conn (List.replicate cfg.block_count BlockState.None)
    (List.replicate cfg.piece_length 0)

/-- Block length for block `i`: `last_block_len` for the final block,
`BLOCK_LEN` otherwise, as computed at each request site and at the piece
write. -/
def blockLenFor (cfg : DPConfig) (i : Nat) : Nat :=
  if i = cfg.block_count - 1 then cfg.last_block_len else BLOCK_LEN

/-- The `request` message sent for block `i` (all three fields pass through
`as u32`). -/
def requestFor (cfg : DPConfig) (i : Nat) : PeerMessage :=
  .Request (cfg.piece_index % 2 ^ 32) (i * BLOCK_LEN % 2 ^ 32) (blockLenFor cfg i % 2 ^ 32)

/-- Mark the first `w` blocks `Requested`
(`block_states.iter_mut().enumerate().take(w)` with assignment). -/
def markFirstRequested : Nat → List BlockState → List BlockState
  | 0, sts => sts
  | _ + 1, [] => []
  | w + 1, _ :: rest => BlockState.Requested :: markFirstRequested w rest

/-- The batch of initial requests sent in the `ReadyToRequest` arm. -/
def initialRequests (cfg : DPConfig) : List PeerMessage :=
  (List.range (min cfg.block_count MAX_CONCURRENT_REQUESTS)).map (requestFor cfg)

/-- Result of one iteration of the `download_piece` loop: continue looping,
leave the loop (`break`), fail with an error, or panic. -/
inductive StepResult where
  | panic
  | error (msg : String)
  | continue (st : DPState) (sent : List PeerMessage)
  | breakLoop (st : DPState) (sent : List PeerMessage)

/-- One iteration of the `loop` in `download_piece` (`src/peer.rs:402-478`).
In the two states that read from the socket (`WaitingForUnchoke`,
`GettingPieces`) the iteration consumes the head of `inbox` (an empty inbox is
the peer closing the connection, surfaced by `receive_message` as an error);
in the other two loop states `inbox` is untouched.  Indexing
`block_states[block_index]` out of bounds and `copy_from_slice` with
mismatched bounds or lengths are panics.  States outside the four loop arms
hit `unreachable!()`, a panic. -/
def downloadPieceStep (cfg : DPConfig) (st : DPState) (inbox : List PeerMessage) :
    StepResult × List PeerMessage :=
  match st.connState with
  | .ReadyToExpressInterest =>
    (.continue (DPState.mk .WaitingForUnchoke st.blockStates st.piece) [.Interested], inbox)
  | .WaitingForUnchoke =>
    match inbox with
    | [] => (.error "connected reset by peer", [])
    | m :: rest =>
      match m with
      | .Unchoke => (.continue (DPState.mk .ReadyToRequest st.blockStates st.piece) [], rest)
      | _ => (.continue st [], rest)
  | .ReadyToRequest =>
    (.continue
      (DPState.mk .GettingPieces
        (markFirstRequested (min cfg.block_count MAX_CONCURRENT_REQUESTS) st.blockStates)
        st.piece)
      (initialRequests cfg), inbox)
  | .GettingPieces =>
    match inbox with
    | [] => (.error "connected reset by peer", [])
    | m :: rest =>
      match m with
      | .Piece index begin_ block =>
        if index ≠ cfg.piece_index then (.continue st [], rest)
        else
          let block_index := begin_ / BLOCK_LEN
          if st.blockStates.length ≤ block_index then (.panic, rest)
          else
            let sts := st.blockStates.set block_index BlockState.Downloaded
            let block_len := blockLenFor cfg block_index
            if st.piece.length < begin_ + block_len ∨ block.length ≠ block_len then
              (.panic, rest)
            else
              let piece' := st.piece.take begin_ ++ block ++ st.piece.drop (begin_ + block_len)
              match sts.findIdx? (fun s => s = BlockState.None) with
              | some j =>
                (.continue (DPState.mk st.connState (sts.set j BlockState.Requested) piece')
                  [requestFor cfg j], rest)
              | Option.none =>
                if sts.all (fun s => s = BlockState.Downloaded) then
                  (.breakLoop (DPState.mk .ReadyToRequest sts piece') [], rest)
                else (.continue (DPState.mk st.connState sts piece') [], rest)
      | _ => (.continue st [], rest)
  | _ => (.panic, inbox)

/-- Number of blocks currently in state `Requested`. -/
def countRequested (l : List BlockState) : Nat :=
  l.countP (fun s => decide (s = BlockState.Requested))

/-- Requested-block count of the state carried by a step result (0 for error
and panic outcomes, which carry no state). -/
def stepResultRequestedCount : StepResult → Nat
  | .continue st _ => countRequested st.blockStates
  | .breakLoop st _ => countRequested st.blockStates
  | _ => 0

/-- Outcome of the verification-and-write tail of `download_piece`: bytes
written to the output path, the hash-mismatch error, or the panic of
`.get(piece_index).unwrap()` on an out-of-range index. -/
inductive VerifyResult where
  | panic
  | error (msg : String)
  | written (contents : Bytes)
deriving Repr, DecidableEq

/-- Model of the tail of `download_piece` after the loop
(`src/peer.rs:480-491`): hex-encode the SHA-1 of the piece buffer, compare
with the expected piece hash, and only on success write the buffer to the
output path.  The SHA-1 function is the external `sha1` crate, a parameter. -/
def verifyAndWritePiece (sha1 : Bytes → Bytes) (info : TorrentInfo) (piece_index : Nat)
    (piece : Bytes) : VerifyResult :=
  let piece_hash := hexEncode (sha1 piece)
  match info.piece_hashes.get? piece_index with
  | Option.none => .panic
  | some expected =>
    if piece_hash ≠ expected then .error "incorrect piece hash"
    else .written piece

/-- A 7-block piece (`piece_length = 6 * BLOCK_LEN + 1`), used to exhibit a
run of the download loop. -/
def c8Config : DPConfig := DPConfig.mk 0 (6 * 16384 + 1)

/-- A single inbound message: a correctly framed block for block index 6 of
the current piece — a block the client has not requested yet. -/
def c8Inbox : List PeerMessage := [PeerMessage.Piece 0 (6 * 16384) [42]]

/-! ### Properties of the byte order -/

theorem ltBytes_irrefl (a : Bytes) : ltBytes a a = false := by
  induction a with
  | nil => rfl
  | cons x xs ih => simp [ltBytes, ih]

theorem ltBytes_asymm {a b : Bytes} (h : ltBytes a b = true) : ltBytes b a = false := by
  induction a generalizing b with
  | nil =>
    cases b with
    | nil => simp [ltBytes] at h
    | cons y ys => rfl
  | cons x xs ih =>
    cases b with
    | nil => simp [ltBytes] at h
    | cons y ys =>
      by_cases hxy : x < y
      · have hyx : ¬ y < x := by omega
        simp [ltBytes, hxy, hyx]
      · by_cases hyx : y < x
        · simp [ltBytes, hxy, hyx] at h
        · simp [ltBytes, hxy, hyx] at h ⊢
          exact ih h

theorem ltBytes_trans {a b c : Bytes} (h1 : ltBytes a b = true) (h2 : ltBytes b c = true) :
    ltBytes a c = true := by
  induction a generalizing b c with
  | nil =>
    cases c with
    | nil => cases b <;> simp [ltBytes] at h2
    | cons z zs => rfl
  | cons x xs ih =>
    cases b with
    | nil => simp [ltBytes] at h1
    | cons y ys =>
      cases c with
      | nil => simp [ltBytes] at h2
      | cons z zs =>
        by_cases hxy : x < y
        · by_cases hyz : y < z
          · simp [ltBytes, show x < z by omega]
          · by_cases hzy : z < y
            · simp [ltBytes, hyz, hzy] at h2
            · have : y = z := by omega
              subst this
              simp [ltBytes, hxy]
        · by_cases hyx : y < x
          · simp [ltBytes, hxy, hyx] at h1
          · have hxyeq : x = y := by omega
            subst hxyeq
            by_cases hyz : x < z
            · simp [ltBytes, hyz]
            · by_cases hzy : z < x
              · simp [ltBytes, hyz, hzy] at h2
              · have : x = z := by omega
                subst this
                simp [ltBytes, hxy] at h1 h2 ⊢
                exact ih h1 h2

theorem ltBytes_total {a b : Bytes} (h1 : ltBytes a b = false) (h2 : a ≠ b) :
    ltBytes b a = true := by
  induction a generalizing b with
  | nil =>
    cases b with
    | nil => exact absurd rfl h2
    | cons y ys => simp [ltBytes] at h1
  | cons x xs ih =>
    cases b with
    | nil => rfl
    | cons y ys =>
      by_cases hxy : x < y
      · simp [ltBytes, hxy] at h1
      · by_cases hyx : y < x
        · simp [ltBytes, hyx]
        · have hxyeq : x = y := by omega
          subst hxyeq
          simp [ltBytes, hxy] at h1 ⊢
          exact ih h1 (by intro e; exact h2 (by rw [e]))

/-! ### Properties of decimal rendering and parsing -/

theorem natToDigits_ne_nil (n : Nat) : natToDigits n ≠ [] := by
  unfold natToDigits
  split
  · simp
  · simp

theorem natToDigits_all_digit (n : Nat) : ∀ b ∈ natToDigits n, 48 ≤ b ∧ b ≤ 57 := by
  induction n using natToDigits.induct with
  | case1 n h =>
    intro b hb
    rw [natToDigits, dif_pos h] at hb
    simp at hb
    omega
  | case2 n h ih =>
    intro b hb
    rw [natToDigits, dif_neg h] at hb
    rcases List.mem_append.mp hb with h1 | h1
    · exact ih b h1
    · simp at h1
      have : n % 10 < 10 := Nat.mod_lt _ (by omega)
      omega

theorem natToDigits_cons (n : Nat) :
    ∃ b t, natToDigits n = b :: t ∧ 48 ≤ b ∧ b ≤ 57 := by
  cases hd : natToDigits n with
  | nil => exact absurd hd (natToDigits_ne_nil n)
  | cons b t =>
    have := natToDigits_all_digit n b (by rw [hd]; exact List.mem_cons_self b t)
    exact ⟨b, t, rfl, this⟩

theorem digitsToNat_append_digit (ds : Bytes) (d : Nat) :
    digitsToNat (ds ++ [d]) = digitsToNat ds * 10 + (d - 48) := by
  simp [digitsToNat, List.foldl_append]

theorem digitsToNat_natToDigits (n : Nat) : digitsToNat (natToDigits n) = n := by
  induction n using natToDigits.induct with
  | case1 n h =>
    rw [natToDigits, dif_pos h]
    simp [digitsToNat]
  | case2 n h ih =>
    rw [natToDigits, dif_neg h, digitsToNat_append_digit, ih]
    omega

theorem parseDigits_natToDigits (n : Nat) : parseDigits (natToDigits n) = some n := by
  have hall : (natToDigits n).all isDigit = true := by
    rw [List.all_eq_true]
    intro b hb
    have := natToDigits_all_digit n b hb
    simp [isDigit]
    omega
  have hne : (natToDigits n).isEmpty = false := by
    cases hd : natToDigits n with
    | nil => exact absurd hd (natToDigits_ne_nil n)
    | cons b t => rfl
  simp [parseDigits, hne, hall, digitsToNat_natToDigits]

theorem parseAsciiNat_natToDigits {n : Nat} (h : n < 2 ^ 64) :
    parseAsciiNat (natToDigits n) = some n := by
  obtain ⟨b, t, hbt, hb1, hb2⟩ := natToDigits_cons n
  rw [hbt]
  have hb43 : ¬ b = 43 := by omega
  simp only [parseAsciiNat, if_neg hb43]
  rw [← hbt, parseDigits_natToDigits]
  simp only [clampNatBelow, if_pos h]

theorem parseAsciiInt_intToAscii {n : Int} (h1 : -(2 ^ 63) ≤ n) (h2 : n < 2 ^ 63) :
    parseAsciiInt (intToAscii n) = some n := by
  by_cases hn : n < 0
  · rw [intToAscii, if_pos hn]
    have hle : (n.natAbs : Int) ≤ 2 ^ 63 := by omega
    have habs : n.natAbs ≤ 2 ^ 63 := by exact_mod_cast hle
    have hval : -((n.natAbs : Nat) : Int) = n := by omega
    simp only [parseAsciiInt, if_pos rfl, parseDigits_natToDigits, negFromDigits,
      if_pos habs, hval]
    simp
  · rw [intToAscii, if_neg hn]
    obtain ⟨b, t, hbt, hb1, hb2⟩ := natToDigits_cons n.toNat
    rw [hbt]
    have hb45 : ¬ b = 45 := by omega
    have hb43 : ¬ b = 43 := by omega
    simp only [parseAsciiInt, if_neg hb45, if_neg hb43]
    rw [← hbt, parseDigits_natToDigits]
    have hlt : n.toNat < 2 ^ 63 := by omega
    have hval : ((n.toNat : Nat) : Int) = n := by omega
    simp only [posFromDigits, if_pos hlt, hval]

theorem clampNatBelow_some {bound : Nat} {o : Option Nat} {n : Nat}
    (h : clampNatBelow bound o = some n) : n < bound := by
  rcases o with _ | v
  · simp [clampNatBelow] at h
  · simp only [clampNatBelow] at h
    by_cases hv : v < bound
    · rw [if_pos hv] at h
      simp at h
      omega
    · rw [if_neg hv] at h
      simp at h

theorem parseAsciiNat_lt {s : Bytes} {n : Nat} (h : parseAsciiNat s = some n) : n < 2 ^ 64 := by
  rcases s with _ | ⟨b, t⟩
  · simp [parseAsciiNat] at h
  · simp only [parseAsciiNat] at h
    exact clampNatBelow_some h

theorem negFromDigits_range {o : Option Nat} {n : Int} (h : negFromDigits o = some n) :
    -(2 ^ 63) ≤ n ∧ n < 2 ^ 63 := by
  rcases o with _ | v
  · simp [negFromDigits] at h
  · simp only [negFromDigits] at h
    by_cases hv : v ≤ 2 ^ 63
    · rw [if_pos hv] at h
      simp at h
      omega
    · rw [if_neg hv] at h
      simp at h

theorem posFromDigits_range {o : Option Nat} {n : Int} (h : posFromDigits o = some n) :
    -(2 ^ 63) ≤ n ∧ n < 2 ^ 63 := by
  rcases o with _ | v
  · simp [posFromDigits] at h
  · simp only [posFromDigits] at h
    by_cases hv : v < 2 ^ 63
    · rw [if_pos hv] at h
      simp at h
      omega
    · rw [if_neg hv] at h
      simp at h

theorem parseAsciiInt_range {s : Bytes} {n : Int} (h : parseAsciiInt s = some n) :
    -(2 ^ 63) ≤ n ∧ n < 2 ^ 63 := by
  rcases s with _ | ⟨b, t⟩
  · simp [parseAsciiInt] at h
  · simp only [parseAsciiInt] at h
    by_cases hb : b = 45
    · rw [if_pos hb] at h
      exact negFromDigits_range h
    · rw [if_neg hb] at h
      exact posFromDigits_range h

/-! ### Properties of byte search -/

theorem firstIdxOf_append {b : Nat} {l r : Bytes} (h : ∀ x ∈ l, x ≠ b) :
    firstIdxOf b (l ++ b :: r) = some l.length := by
  induction l with
  | nil => simp [firstIdxOf]
  | cons x xs ih =>
    have hx : ¬ x = b := h x (List.mem_cons_self x xs)
    have ih' := ih (fun y hy => h y (List.mem_cons_of_mem x hy))
    simp only [List.cons_append, firstIdxOf, if_neg hx, List.append_eq, ih', List.length_cons]
    rfl

theorem firstIdxOf_lt_length {b : Nat} {l : Bytes} {i : Nat} (h : firstIdxOf b l = some i) :
    i < l.length := by
  induction l generalizing i with
  | nil => simp [firstIdxOf] at h
  | cons x xs ih =>
    by_cases hx : x = b
    · simp only [firstIdxOf, if_pos hx] at h
      simp at h
      simp [← h]
    · simp only [firstIdxOf, if_neg hx] at h
      rcases hr : firstIdxOf b xs with _ | j <;> rw [hr] at h
      · simp at h
      · simp at h
        have := ih hr
        rw [← h]
        simp only [List.length_cons]
        omega

/-! ### Properties of sorted insertion (the BTreeMap model) -/

theorem keyLtHead_insertSorted {k0 k : Bytes} {v : BencodeValue}
    {m : List (Bytes × BencodeValue)} (h1 : keyLtHead k0 m = true)
    (h2 : ltBytes k0 k = true) : keyLtHead k0 (insertSorted m k v) = true := by
  cases m with
  | nil => simp [insertSorted, keyLtHead, h2]
  | cons p rest =>
    obtain ⟨k1, v1⟩ := p
    simp only [insertSorted]
    by_cases ha : ltBytes k k1 = true
    · rw [if_pos ha]
      simp [keyLtHead, h2]
    · rw [if_neg ha]
      by_cases hb : k = k1
      · rw [if_pos hb]
        simp [keyLtHead, h2]
      · rw [if_neg hb]
        simp only [keyLtHead] at h1
        simp [keyLtHead, h1]

theorem insertSorted_wfEntries {k : Bytes} {v : BencodeValue} (hk : k.length < 2 ^ 64)
    (hv : wfValue v = true) :
    ∀ m : List (Bytes × BencodeValue), wfEntries m = true →
      wfEntries (insertSorted m k v) = true := by
  intro m
  induction m with
  | nil =>
    intro _
    simp only [insertSorted, wfEntries, keyLtHead, Bool.and_eq_true]
    exact ⟨⟨⟨decide_eq_true hk, hv⟩, trivial⟩, trivial⟩
  | cons p rest ih =>
    intro hm
    obtain ⟨k0, v0⟩ := p
    simp only [wfEntries, Bool.and_eq_true] at hm
    obtain ⟨⟨⟨ha, hb⟩, hc⟩, hd⟩ := hm
    simp only [insertSorted]
    by_cases h1 : ltBytes k k0 = true
    · rw [if_pos h1]
      simp only [wfEntries, keyLtHead, Bool.and_eq_true]
      exact ⟨⟨⟨decide_eq_true hk, hv⟩, h1⟩, ⟨⟨⟨ha, hb⟩, hc⟩, hd⟩⟩
    · rw [if_neg h1]
      by_cases h2 : k = k0
      · rw [if_pos h2]
        subst h2
        simp only [wfEntries, Bool.and_eq_true]
        exact ⟨⟨⟨decide_eq_true hk, hv⟩, hc⟩, hd⟩
      · rw [if_neg h2]
        have h3 : ltBytes k0 k = true :=
          ltBytes_total (by simpa using h1) h2
        have h4 := keyLtHead_insertSorted (v := v) hc h3
        simp only [wfEntries, Bool.and_eq_true]
        exact ⟨⟨⟨ha, hb⟩, h4⟩, ih hd⟩

theorem keysSortedAsc_all_lt :
    ∀ (xs : List (Bytes × BencodeValue)) (k : Bytes) (v : BencodeValue)
      (ys : List (Bytes × BencodeValue)),
      keysSortedAsc (xs ++ (k, v) :: ys) = true → ∀ q ∈ xs, ltBytes q.1 k = true := by
  intro xs
  induction xs with
  | nil =>
    intro k v ys _ q hq
    simp at hq
  | cons q0 xs ih =>
    intro k v ys h q hq
    obtain ⟨k0, v0⟩ := q0
    simp only [List.cons_append, keysSortedAsc, Bool.and_eq_true] at h
    obtain ⟨hhead, htail⟩ := h
    rcases List.mem_cons.mp hq with rfl | hq'
    · cases xs with
      | nil => simpa [keyLtHead] using hhead
      | cons q1 xs' =>
        obtain ⟨k1, v1⟩ := q1
        have h1 : ltBytes k0 k1 = true := by simpa [keyLtHead] using hhead
        have h2 : ltBytes k1 k = true := ih k v ys htail (k1, v1) (List.mem_cons_self _ _)
        exact ltBytes_trans h1 h2
    · exact ih k v ys htail q hq'

theorem insertSorted_append_of_lt :
    ∀ (m : List (Bytes × BencodeValue)) (k : Bytes) (v : BencodeValue),
      (∀ q ∈ m, ltBytes q.1 k = true) → insertSorted m k v = m ++ [(k, v)] := by
  intro m
  induction m with
  | nil =>
    intro k v _
    rfl
  | cons q0 rest ih =>
    intro k v h
    obtain ⟨k0, v0⟩ := q0
    have h0 : ltBytes k0 k = true := h (k0, v0) (List.mem_cons_self _ _)
    have hn1 : ¬ (ltBytes k k0 = true) := by
      rw [ltBytes_asymm h0]
      simp
    have hn2 : ¬ k = k0 := by
      intro e
      subst e
      rw [ltBytes_irrefl] at h0
      exact absurd h0 (by simp)
    simp only [insertSorted, if_neg hn1, if_neg hn2, List.cons_append]
    rw [ih k v (fun q hq => h q (List.mem_cons_of_mem _ hq))]

theorem foldl_insertSorted_of_sorted :
    ∀ (entries acc : List (Bytes × BencodeValue)),
      keysSortedAsc (acc ++ entries) = true →
      entries.foldl (fun m p => insertSorted m p.1 p.2) acc = acc ++ entries := by
  intro entries
  induction entries with
  | nil =>
    intro acc _
    simp
  | cons p rest ih =>
    intro acc h
    obtain ⟨k, v⟩ := p
    have hlt := keysSortedAsc_all_lt acc k v rest h
    have hins : insertSorted acc k v = acc ++ [(k, v)] := insertSorted_append_of_lt acc k v hlt
    rw [List.foldl_cons]
    dsimp only
    rw [hins, ih (acc ++ [(k, v)]) (by rwa [← List.append_cons]), ← List.append_cons]

/-! ### Extraction lemmas for well-formedness -/

theorem wfEntries_vals : ∀ l, wfEntries l = true → wfEntryVals l = true := by
  intro l
  induction l with
  | nil =>
    intro _
    rfl
  | cons p rest ih =>
    intro h
    obtain ⟨k, v⟩ := p
    simp only [wfEntries, Bool.and_eq_true] at h
    obtain ⟨⟨⟨ha, hb⟩, _⟩, hd⟩ := h
    simp only [wfEntryVals, Bool.and_eq_true]
    exact ⟨⟨ha, hb⟩, ih hd⟩

theorem wfEntries_sorted : ∀ l, wfEntries l = true → keysSortedAsc l = true := by
  intro l
  induction l with
  | nil =>
    intro _
    rfl
  | cons p rest ih =>
    intro h
    obtain ⟨k, v⟩ := p
    simp only [wfEntries, Bool.and_eq_true] at h
    obtain ⟨⟨⟨_, _⟩, hc⟩, hd⟩ := h
    simp only [keysSortedAsc, Bool.and_eq_true]
    exact ⟨hc, ih hd⟩

theorem wfValues_iff : ∀ l, wfValues l = true ↔ ∀ v ∈ l, wfValue v = true := by
  intro l
  induction l with
  | nil => simp [wfValues]
  | cons v rest ih => simp [wfValues, Bool.and_eq_true, List.forall_mem_cons, ih]

theorem wfValues_reverse {l : List BencodeValue} (h : wfValues l = true) :
    wfValues l.reverse = true := by
  rw [wfValues_iff] at h ⊢
  intro v hv
  exact h v (List.mem_reverse.mp hv)

/-! ### Structure of encoded values -/

theorem to_bytes_head (v : BencodeValue) :
    ∃ b t, v.to_bytes = b :: t ∧ ((48 ≤ b ∧ b ≤ 57) ∨ b = 105 ∨ b = 108 ∨ b = 100) := by
  cases v with
  | byteString bs =>
    obtain ⟨b, t, hbt, hr⟩ := natToDigits_cons bs.length
    exact ⟨b, t ++ 58 :: bs, by simp [BencodeValue.to_bytes, hbt], Or.inl hr⟩
  | integer n =>
    exact ⟨105, intToAscii n ++ [101], by simp [BencodeValue.to_bytes], by simp⟩
  | list values =>
    exact ⟨108, toBytesValues values ++ [101], by simp [BencodeValue.to_bytes], by simp⟩
  | dictionary entries =>
    exact ⟨100, toBytesEntries entries ++ [101], by simp [BencodeValue.to_bytes], by simp⟩

theorem to_bytes_length_pos (v : BencodeValue) : 1 ≤ v.to_bytes.length := by
  obtain ⟨b, t, h, _⟩ := to_bytes_head v
  simp [h]

theorem intToAscii_all_ne_e (n : Int) : ∀ x ∈ intToAscii n, x ≠ 101 := by
  intro x hx
  unfold intToAscii at hx
  split at hx
  · rcases List.mem_cons.mp hx with rfl | hx'
    · omega
    · have := natToDigits_all_digit _ x hx'
      omega
  · have := natToDigits_all_digit _ x hx
    omega

/-! ### Evaluation of the scalar parse branches on encoded input -/

theorem parseByteStringBranch_encode (bs s : Bytes) (h : bs.length < 2 ^ 64) :
    parseByteStringBranch (BencodeValue.to_bytes (.byteString bs) ++ s) =
      .ok s (.byteString bs) := by
  have hinput : BencodeValue.to_bytes (.byteString bs) ++ s =
      natToDigits bs.length ++ 58 :: (bs ++ s) := by
    simp [BencodeValue.to_bytes]
  have hne : ∀ x ∈ natToDigits bs.length, x ≠ 58 := by
    intro x hx
    have := natToDigits_all_digit bs.length x hx
    omega
  have hidx : firstIdxOf 58 (natToDigits bs.length ++ 58 :: (bs ++ s)) =
      some (natToDigits bs.length).length := firstIdxOf_append hne
  have htake : (natToDigits bs.length ++ 58 :: (bs ++ s)).take (natToDigits bs.length).length =
      natToDigits bs.length := List.take_left _ _
  have hparse : parseAsciiNat (natToDigits bs.length) = some bs.length :=
    parseAsciiNat_natToDigits h
  have hlen : ¬ ((natToDigits bs.length ++ 58 :: (bs ++ s)).length <
      (natToDigits bs.length).length + 1 + bs.length) := by
    simp only [List.length_append, List.length_cons]
    omega
  have hdrop1 : (natToDigits bs.length ++ 58 :: (bs ++ s)).drop
      ((natToDigits bs.length).length + 1) = bs ++ s := by
    have e1 : natToDigits bs.length ++ 58 :: (bs ++ s) =
        (natToDigits bs.length ++ [58]) ++ (bs ++ s) := by simp
    have e2 : (natToDigits bs.length).length + 1 = (natToDigits bs.length ++ [58]).length := by
      simp
    rw [e1, e2, List.drop_left]
  have htake2 : (bs ++ s).take bs.length = bs := List.take_left bs s
  have hdrop2 : (natToDigits bs.length ++ 58 :: (bs ++ s)).drop
      ((natToDigits bs.length).length + 1 + bs.length) = s := by
    have e1 : natToDigits bs.length ++ 58 :: (bs ++ s) =
        ((natToDigits bs.length ++ [58]) ++ bs) ++ s := by simp
    have e2 : (natToDigits bs.length).length + 1 + bs.length =
        ((natToDigits bs.length ++ [58]) ++ bs).length := by
      simp
      omega
    rw [e1, e2, List.drop_left]
  rw [hinput]
  simp only [parseByteStringBranch, hidx, htake, hparse, if_neg hlen, hdrop1, htake2, hdrop2]

theorem parseIntegerBranch_encode (n : Int) (s : Bytes) (h1 : -(2 ^ 63) ≤ n)
    (h2 : n < 2 ^ 63) :
    parseIntegerBranch (BencodeValue.to_bytes (.integer n) ++ s) = .ok s (.integer n) := by
  have hinput : BencodeValue.to_bytes (.integer n) ++ s = (105 :: intToAscii n) ++ 101 :: s := by
    simp [BencodeValue.to_bytes]
  have hne : ∀ x ∈ 105 :: intToAscii n, x ≠ 101 := by
    intro x hx
    rcases List.mem_cons.mp hx with rfl | hx'
    · omega
    · exact intToAscii_all_ne_e n x hx'
  have hidx : firstIdxOf 101 ((105 :: intToAscii n) ++ 101 :: s) =
      some (105 :: intToAscii n).length := firstIdxOf_append hne
  have htake : ((105 :: intToAscii n) ++ 101 :: s).take (105 :: intToAscii n).length =
      105 :: intToAscii n := List.take_left _ _
  have hdrop : (105 :: intToAscii n).drop 1 = intToAscii n := rfl
  have hparse : parseAsciiInt (intToAscii n) = some n := parseAsciiInt_intToAscii h1 h2
  have hdropE : ((105 :: intToAscii n) ++ 101 :: s).drop ((105 :: intToAscii n).length + 1) =
      s := by
    have e1 : (105 :: intToAscii n) ++ 101 :: s = ((105 :: intToAscii n) ++ [101]) ++ s := by
      simp
    have e2 : (105 :: intToAscii n).length + 1 = ((105 :: intToAscii n) ++ [101]).length := by
      simp
    rw [e1, e2, List.drop_left]
  rw [hinput]
  simp only [parseIntegerBranch, hidx, htake, hdrop, hparse, hdropE]

/-! ### One-step unfolding of the fueled parsers -/

theorem fromBytesFuel_succ (f : Nat) (b : Nat) (rest : Bytes) :
    fromBytesFuel (f + 1) (b :: rest) =
      (if isDigit b then parseByteStringBranch (b :: rest)
       else if b = 105 then parseIntegerBranch (b :: rest)
       else if b = 108 then decodeListFuel f rest []
       else if b = 100 then decodeDictFuel f rest []
       else .error "invalid bencode value") := rfl

theorem decodeListFuel_succ (f : Nat) (b : Nat) (rest : Bytes) (acc : List BencodeValue) :
    decodeListFuel (f + 1) (b :: rest) acc =
      (if b = 101 then .ok rest (.list acc.reverse)
       else
        match fromBytesFuel f (b :: rest) with
        | .ok rest' v => decodeListFuel f rest' (v :: acc)
        | r => r) := rfl

theorem decodeDictFuel_succ (f : Nat) (b : Nat) (rest : Bytes)
    (acc : List (Bytes × BencodeValue)) :
    decodeDictFuel (f + 1) (b :: rest) acc =
      (if b = 101 then .ok rest (.dictionary acc)
       else
        match fromBytesFuel f (b :: rest) with
        | .ok rest' key =>
          match fromBytesFuel f rest' with
          | .ok rest'' v =>
            match key with
            | .byteString kbs => decodeDictFuel f rest'' (insertSorted acc kbs v)
            | _ => .error "non-byte string dictionary key"
          | r => r
        | r => r) := rfl

/-! ### Decoding an encoded value returns the value -/

theorem decode_encode_fuel : ∀ fuel : Nat,
    (∀ v s, wfValue v = true → (BencodeValue.to_bytes v).length ≤ fuel →
      fromBytesFuel fuel (BencodeValue.to_bytes v ++ s) = .ok s v) ∧
    (∀ values acc s, wfValues values = true → (toBytesValues values).length + 1 ≤ fuel →
      decodeListFuel fuel (toBytesValues values ++ 101 :: s) acc =
        .ok s (.list (acc.reverse ++ values))) ∧
    (∀ entries acc s, wfEntryVals entries = true → (toBytesEntries entries).length + 1 ≤ fuel →
      decodeDictFuel fuel (toBytesEntries entries ++ 101 :: s) acc =
        .ok s (.dictionary (entries.foldl (fun m p => insertSorted m p.1 p.2) acc))) := by
  intro fuel
  induction fuel with
  | zero =>
    refine ⟨?_, ?_, ?_⟩
    · intro v s _ hle
      have := to_bytes_length_pos v
      omega
    · intro values acc s _ hle
      omega
    · intro entries acc s _ hle
      omega
  | succ f ih =>
    obtain ⟨ih1, ih2, ih3⟩ := ih
    refine ⟨?_, ?_, ?_⟩
    · intro v s hwf hle
      cases v with
      | byteString bs =>
        have hb : bs.length < 2 ^ 64 := by
          have := hwf
          simp [wfValue] at this
          omega
        obtain ⟨b, t, hbt, hd1, hd2⟩ := natToDigits_cons bs.length
        have hdig : isDigit b = true := by
          simp [isDigit]
          omega
        have hinput : BencodeValue.to_bytes (.byteString bs) ++ s =
            b :: (t ++ 58 :: (bs ++ s)) := by
          simp [BencodeValue.to_bytes, hbt]
        rw [hinput, fromBytesFuel_succ, if_pos hdig, ← hinput]
        exact parseByteStringBranch_encode bs s hb
      | integer n =>
        have hr : -(2 ^ 63) ≤ n ∧ n < 2 ^ 63 := by
          have := hwf
          simp [wfValue] at this
          omega
        have hinput : BencodeValue.to_bytes (.integer n) ++ s =
            105 :: (intToAscii n ++ 101 :: s) := by
          simp [BencodeValue.to_bytes]
        rw [hinput, fromBytesFuel_succ, if_neg (by decide), if_pos rfl, ← hinput]
        exact parseIntegerBranch_encode n s hr.1 hr.2
      | list values =>
        have hwfl : wfValues values = true := by simpa [wfValue] using hwf
        have hinput : BencodeValue.to_bytes (.list values) ++ s =
            108 :: (toBytesValues values ++ 101 :: s) := by
          simp [BencodeValue.to_bytes]
        have hlen : (toBytesValues values).length + 1 ≤ f := by
          have he : (BencodeValue.to_bytes (.list values)).length =
              (toBytesValues values).length + 2 := by
            simp [BencodeValue.to_bytes]
          omega
        rw [hinput, fromBytesFuel_succ, if_neg (by decide), if_neg (by decide), if_pos rfl]
        have hfin := ih2 values [] s hwfl hlen
        exact hfin.trans (by simp)
      | dictionary entries =>
        have hwfe : wfEntries entries = true := by simpa [wfValue] using hwf
        have hinput : BencodeValue.to_bytes (.dictionary entries) ++ s =
            100 :: (toBytesEntries entries ++ 101 :: s) := by
          simp [BencodeValue.to_bytes]
        have hlen : (toBytesEntries entries).length + 1 ≤ f := by
          have he : (BencodeValue.to_bytes (.dictionary entries)).length =
              (toBytesEntries entries).length + 2 := by
            simp [BencodeValue.to_bytes]
          omega
        rw [hinput, fromBytesFuel_succ, if_neg (by decide), if_neg (by decide),
          if_neg (by decide), if_pos rfl]
        have hfin := ih3 entries [] s (wfEntries_vals _ hwfe) hlen
        have hsorted : keysSortedAsc (([] : List (Bytes × BencodeValue)) ++ entries) = true := by
          simpa using wfEntries_sorted _ hwfe
        rw [hfin, foldl_insertSorted_of_sorted entries [] hsorted]
        simp
    · intro values acc s hwf hle
      cases values with
      | nil =>
        have he : toBytesValues ([] : List BencodeValue) = [] := by simp [toBytesValues]
        rw [he, List.nil_append, decodeListFuel_succ, if_pos rfl]
        simp
      | cons v rest =>
        obtain ⟨b, t, hbt, hb⟩ := to_bytes_head v
        have hne : ¬ b = 101 := by rcases hb with ⟨x1, x2⟩ | x | x | x <;> omega
        have hinput : toBytesValues (v :: rest) ++ 101 :: s =
            b :: (t ++ (toBytesValues rest ++ 101 :: s)) := by
          simp [toBytesValues, hbt]
        have hsplit : b :: (t ++ (toBytesValues rest ++ 101 :: s)) =
            BencodeValue.to_bytes v ++ (toBytesValues rest ++ 101 :: s) := by
          simp [hbt]
        have hwf1 : wfValue v = true ∧ wfValues rest = true := by
          simpa [wfValues, Bool.and_eq_true] using hwf
        have hlens : (toBytesValues (v :: rest)).length =
            (BencodeValue.to_bytes v).length + (toBytesValues rest).length := by
          simp [toBytesValues]
        have hpos := to_bytes_length_pos v
        have hlenv : (BencodeValue.to_bytes v).length ≤ f := by omega
        have hlenr : (toBytesValues rest).length + 1 ≤ f := by omega
        rw [hinput, decodeListFuel_succ, if_neg hne, hsplit, ih1 v _ hwf1.1 hlenv]
        have hfin := ih2 rest (v :: acc) s hwf1.2 hlenr
        have heq : (v :: acc).reverse ++ rest = acc.reverse ++ v :: rest := by simp
        exact hfin.trans (by rw [heq])
    · intro entries acc s hwf hle
      cases entries with
      | nil =>
        have he : toBytesEntries ([] : List (Bytes × BencodeValue)) = [] := by
          simp [toBytesEntries]
        rw [he, List.nil_append, decodeDictFuel_succ, if_pos rfl]
        simp
      | cons p rest =>
        obtain ⟨k, v⟩ := p
        obtain ⟨b, t, hbt, hb⟩ := to_bytes_head (.byteString k)
        have hne : ¬ b = 101 := by rcases hb with ⟨x1, x2⟩ | x | x | x <;> omega
        have hinput : toBytesEntries ((k, v) :: rest) ++ 101 :: s =
            b :: (t ++ (BencodeValue.to_bytes v ++ (toBytesEntries rest ++ 101 :: s))) := by
          simp [toBytesEntries, hbt]
        have hsplit : b :: (t ++ (BencodeValue.to_bytes v ++ (toBytesEntries rest ++ 101 :: s))) =
            BencodeValue.to_bytes (.byteString k) ++
              (BencodeValue.to_bytes v ++ (toBytesEntries rest ++ 101 :: s)) := by
          simp [hbt]
        have hwf1 : (decide (k.length < 2 ^ 64) = true ∧ wfValue v = true) ∧
            wfEntryVals rest = true := by
          simpa [wfEntryVals, Bool.and_eq_true] using hwf
        have hwfk : wfValue (.byteString k) = true := by
          simp only [wfValue]
          exact hwf1.1.1
        have hlens : (toBytesEntries ((k, v) :: rest)).length =
            (BencodeValue.to_bytes (.byteString k)).length + ((BencodeValue.to_bytes v).length +
              (toBytesEntries rest).length) := by
          simp [toBytesEntries]
        have hposk := to_bytes_length_pos (.byteString k)
        have hposv := to_bytes_length_pos v
        have hlenk : (BencodeValue.to_bytes (.byteString k)).length ≤ f := by omega
        have hlenv : (BencodeValue.to_bytes v).length ≤ f := by omega
        have hlenr : (toBytesEntries rest).length + 1 ≤ f := by omega
        rw [hinput, decodeDictFuel_succ, if_neg hne, hsplit,
          ih1 (.byteString k) _ hwfk hlenk]
        simp only []
        rw [ih1 v _ hwf1.1.2 hlenv]
        simp only []
        have hfin := ih3 rest (insertSorted acc k v) s hwf1.2 hlenr
        rw [List.foldl_cons]
        dsimp only
        exact hfin

/-! ### Values produced by the decoder are well-formed -/

theorem parseByteStringBranch_wf {input rest : Bytes} {v : BencodeValue}
    (h : parseByteStringBranch input = .ok rest v) : wfValue v = true := by
  unfold parseByteStringBranch at h
  rcases hidx : firstIdxOf 58 input with _ | d <;> rw [hidx] at h
  · simp at h
  · simp only [] at h
    rcases hp : parseAsciiNat (input.take d) with _ | len <;> rw [hp] at h
    · simp at h
    · simp only [] at h
      by_cases hlen : input.length < d + 1 + len
      · rw [if_pos hlen] at h
        simp at h
      · rw [if_neg hlen] at h
        injection h with h1 h2
        subst h2
        simp only [wfValue]
        apply decide_eq_true
        have hb := parseAsciiNat_lt hp
        simp only [List.length_take]
        omega

theorem parseIntegerBranch_wf {input rest : Bytes} {v : BencodeValue}
    (h : parseIntegerBranch input = .ok rest v) : wfValue v = true := by
  unfold parseIntegerBranch at h
  rcases hidx : firstIdxOf 101 input with _ | e <;> rw [hidx] at h
  · simp at h
  · simp only [] at h
    rcases hp : parseAsciiInt ((input.take e).drop 1) with _ | n <;> rw [hp] at h
    · simp at h
    · simp only [] at h
      injection h with h1 h2
      subst h2
      have hr := parseAsciiInt_range hp
      simp only [wfValue, Bool.and_eq_true]
      exact ⟨decide_eq_true hr.1, decide_eq_true hr.2⟩

theorem decode_wf_fuel : ∀ fuel : Nat,
    (∀ input rest v, fromBytesFuel fuel input = .ok rest v → wfValue v = true) ∧
    (∀ input acc rest v, wfValues acc = true → decodeListFuel fuel input acc = .ok rest v →
      wfValue v = true) ∧
    (∀ input acc rest v, wfEntries acc = true → decodeDictFuel fuel input acc = .ok rest v →
      wfValue v = true) := by
  intro fuel
  induction fuel with
  | zero =>
    refine ⟨?_, ?_, ?_⟩
    · intro input rest v h
      simp [fromBytesFuel] at h
    · intro input acc rest v _ h
      simp [decodeListFuel] at h
    · intro input acc rest v _ h
      simp [decodeDictFuel] at h
  | succ f ih =>
    obtain ⟨ih1, ih2, ih3⟩ := ih
    refine ⟨?_, ?_, ?_⟩
    · intro input rest v h
      cases input with
      | nil => simp [fromBytesFuel] at h
      | cons b bt =>
        rw [fromBytesFuel_succ] at h
        by_cases h1 : isDigit b = true
        · rw [if_pos h1] at h
          exact parseByteStringBranch_wf h
        · rw [if_neg h1] at h
          by_cases h2 : b = 105
          · rw [if_pos h2] at h
            exact parseIntegerBranch_wf h
          · rw [if_neg h2] at h
            by_cases h3 : b = 108
            · rw [if_pos h3] at h
              exact ih2 _ _ _ _ (by simp [wfValues]) h
            · rw [if_neg h3] at h
              by_cases h4 : b = 100
              · rw [if_pos h4] at h
                exact ih3 _ _ _ _ (by simp [wfEntries]) h
              · rw [if_neg h4] at h
                simp at h
    · intro input acc rest v hacc h
      cases input with
      | nil => simp [decodeListFuel] at h
      | cons b bt =>
        rw [decodeListFuel_succ] at h
        by_cases hb : b = 101
        · rw [if_pos hb] at h
          injection h with h1 h2
          subst h2
          simp only [wfValue]
          exact wfValues_reverse hacc
        · rw [if_neg hb] at h
          rcases hr : fromBytesFuel f (b :: bt) with _ | _ | msg | ⟨rest', v'⟩ <;> rw [hr] at h
          · simp at h
          · simp at h
          · simp at h
          · simp only [] at h
            have hv' := ih1 _ _ _ hr
            exact ih2 _ (v' :: acc) _ _
              (by simp only [wfValues, Bool.and_eq_true]; exact ⟨hv', hacc⟩) h
    · intro input acc rest v hacc h
      cases input with
      | nil => simp [decodeDictFuel] at h
      | cons b bt =>
        rw [decodeDictFuel_succ] at h
        by_cases hb : b = 101
        · rw [if_pos hb] at h
          injection h with h1 h2
          subst h2
          simp only [wfValue]
          exact hacc
        · rw [if_neg hb] at h
          rcases hr : fromBytesFuel f (b :: bt) with _ | _ | msg | ⟨rest', key⟩ <;> rw [hr] at h
          · simp at h
          · simp at h
          · simp at h
          · simp only [] at h
            rcases hr2 : fromBytesFuel f rest' with _ | _ | msg2 | ⟨rest'', v'⟩ <;> rw [hr2] at h
            · simp at h
            · simp at h
            · simp at h
            · simp only [] at h
              cases key with
              | byteString kbs =>
                simp only [] at h
                have hkwf := ih1 _ _ _ hr
                have hvwf := ih1 _ _ _ hr2
                have hk : kbs.length < 2 ^ 64 := by
                  simp only [wfValue] at hkwf
                  exact of_decide_eq_true hkwf
                exact ih3 _ (insertSorted acc kbs v') _ _
                  (insertSorted_wfEntries hk hvwf acc hacc) h
              | integer n => simp at h
              | list values => simp at h
              | dictionary entries => simp at h

/-! ### The fuel budget of from_bytes is sufficient

Every successful parse consumes at least one byte, so `2 * input.length + 2`
fuel never runs out: the fueled model agrees with the unbounded Rust recursion
on every input. -/

theorem parseByteStringBranch_consumes {input rest : Bytes} {v : BencodeValue}
    (h : parseByteStringBranch input = .ok rest v) : rest.length < input.length := by
  unfold parseByteStringBranch at h
  rcases hidx : firstIdxOf 58 input with _ | d <;> rw [hidx] at h
  · simp at h
  · simp only [] at h
    rcases hp : parseAsciiNat (input.take d) with _ | len <;> rw [hp] at h
    · simp at h
    · simp only [] at h
      by_cases hlen : input.length < d + 1 + len
      · rw [if_pos hlen] at h
        simp at h
      · rw [if_neg hlen] at h
        injection h with h1 h2
        rw [← h1]
        simp only [List.length_drop]
        omega

theorem parseIntegerBranch_consumes {input rest : Bytes} {v : BencodeValue}
    (h : parseIntegerBranch input = .ok rest v) : rest.length < input.length := by
  unfold parseIntegerBranch at h
  rcases hidx : firstIdxOf 101 input with _ | e <;> rw [hidx] at h
  · simp at h
  · simp only [] at h
    rcases hp : parseAsciiInt ((input.take e).drop 1) with _ | n <;> rw [hp] at h
    · simp at h
    · simp only [] at h
      injection h with h1 h2
      rw [← h1]
      have := firstIdxOf_lt_length hidx
      simp only [List.length_drop]
      omega

theorem decode_consumes : ∀ fuel : Nat,
    (∀ input rest v, fromBytesFuel fuel input = .ok rest v → rest.length < input.length) ∧
    (∀ input acc rest v, decodeListFuel fuel input acc = .ok rest v →
      rest.length < input.length) ∧
    (∀ input acc rest v, decodeDictFuel fuel input acc = .ok rest v →
      rest.length < input.length) := by
  intro fuel
  induction fuel with
  | zero =>
    refine ⟨?_, ?_, ?_⟩
    · intro input rest v h
      simp [fromBytesFuel] at h
    · intro input acc rest v h
      simp [decodeListFuel] at h
    · intro input acc rest v h
      simp [decodeDictFuel] at h
  | succ f ih =>
    obtain ⟨ih1, ih2, ih3⟩ := ih
    refine ⟨?_, ?_, ?_⟩
    · intro input rest v h
      cases input with
      | nil => simp [fromBytesFuel] at h
      | cons b bt =>
        rw [fromBytesFuel_succ] at h
        by_cases h1 : isDigit b = true
        · rw [if_pos h1] at h
          exact parseByteStringBranch_consumes h
        · rw [if_neg h1] at h
          by_cases h2 : b = 105
          · rw [if_pos h2] at h
            exact parseIntegerBranch_consumes h
          · rw [if_neg h2] at h
            by_cases h3 : b = 108
            · rw [if_pos h3] at h
              have := ih2 _ _ _ _ h
              simp only [List.length_cons]
              omega
            · rw [if_neg h3] at h
              by_cases h4 : b = 100
              · rw [if_pos h4] at h
                have := ih3 _ _ _ _ h
                simp only [List.length_cons]
                omega
              · rw [if_neg h4] at h
                simp at h
    · intro input acc rest v h
      cases input with
      | nil => simp [decodeListFuel] at h
      | cons b bt =>
        rw [decodeListFuel_succ] at h
        by_cases hb : b = 101
        · rw [if_pos hb] at h
          injection h with h1 h2
          rw [← h1]
          simp
        · rw [if_neg hb] at h
          rcases hr : fromBytesFuel f (b :: bt) with _ | _ | msg | ⟨rest', v'⟩ <;> rw [hr] at h
          · simp at h
          · simp at h
          · simp at h
          · simp only [] at h
            have ha := ih1 _ _ _ hr
            have hc := ih2 _ _ _ _ h
            omega
    · intro input acc rest v h
      cases input with
      | nil => simp [decodeDictFuel] at h
      | cons b bt =>
        rw [decodeDictFuel_succ] at h
        by_cases hb : b = 101
        · rw [if_pos hb] at h
          injection h with h1 h2
          rw [← h1]
          simp
        · rw [if_neg hb] at h
          rcases hr : fromBytesFuel f (b :: bt) with _ | _ | msg | ⟨rest', key⟩ <;> rw [hr] at h
          · simp at h
          · simp at h
          · simp at h
          · simp only [] at h
            rcases hr2 : fromBytesFuel f rest' with _ | _ | msg2 | ⟨rest'', v'⟩ <;> rw [hr2] at h
            · simp at h
            · simp at h
            · simp at h
            · simp only [] at h
              cases key with
              | byteString kbs =>
                simp only [] at h
                have ha := ih1 _ _ _ hr
                have hb2 := ih1 _ _ _ hr2
                have hc := ih3 _ _ _ _ h
                omega
              | integer n => simp at h
              | list values => simp at h
              | dictionary entries => simp at h

theorem parseByteStringBranch_ne_outOfFuel (input : Bytes) :
    parseByteStringBranch input ≠ .outOfFuel := by
  unfold parseByteStringBranch
  rcases hidx : firstIdxOf 58 input with _ | d
  · simp
  · simp only []
    rcases hp : parseAsciiNat (input.take d) with _ | len
    · simp
    · simp only []
      by_cases hlen : input.length < d + 1 + len
      · rw [if_pos hlen]
        simp
      · rw [if_neg hlen]
        simp

theorem parseIntegerBranch_ne_outOfFuel (input : Bytes) :
    parseIntegerBranch input ≠ .outOfFuel := by
  unfold parseIntegerBranch
  rcases hidx : firstIdxOf 101 input with _ | e
  · simp
  · simp only []
    rcases hp : parseAsciiInt ((input.take e).drop 1) with _ | n
    · simp
    · simp

theorem decode_fuel_sufficient : ∀ fuel : Nat,
    (∀ input, 2 * input.length + 1 ≤ fuel → fromBytesFuel fuel input ≠ .outOfFuel) ∧
    (∀ input acc, 2 * input.length + 2 ≤ fuel → decodeListFuel fuel input acc ≠ .outOfFuel) ∧
    (∀ input acc, 2 * input.length + 2 ≤ fuel → decodeDictFuel fuel input acc ≠ .outOfFuel) := by
  intro fuel
  induction fuel with
  | zero =>
    refine ⟨?_, ?_, ?_⟩
    · intro input hle
      omega
    · intro input acc hle
      omega
    · intro input acc hle
      omega
  | succ f ih =>
    obtain ⟨ih1, ih2, ih3⟩ := ih
    refine ⟨?_, ?_, ?_⟩
    · intro input hle
      cases input with
      | nil =>
        intro heq
        simp [fromBytesFuel] at heq
      | cons b bt =>
        rw [fromBytesFuel_succ]
        by_cases h1 : isDigit b = true
        · rw [if_pos h1]
          exact parseByteStringBranch_ne_outOfFuel _
        · rw [if_neg h1]
          by_cases h2 : b = 105
          · rw [if_pos h2]
            exact parseIntegerBranch_ne_outOfFuel _
          · rw [if_neg h2]
            by_cases h3 : b = 108
            · rw [if_pos h3]
              apply ih2
              simp only [List.length_cons] at hle
              omega
            · rw [if_neg h3]
              by_cases h4 : b = 100
              · rw [if_pos h4]
                apply ih3
                simp only [List.length_cons] at hle
                omega
              · rw [if_neg h4]
                simp
    · intro input acc hle
      cases input with
      | nil =>
        intro heq
        simp [decodeListFuel] at heq
      | cons b bt =>
        rw [decodeListFuel_succ]
        by_cases hb : b = 101
        · rw [if_pos hb]
          simp
        · rw [if_neg hb]
          simp only [List.length_cons] at hle
          rcases hr : fromBytesFuel f (b :: bt) with _ | _ | msg | ⟨rest', v'⟩
          · simp
          · exact absurd hr (ih1 _ (by simp only [List.length_cons]; omega))
          · simp
          · simp only []
            have hcons := (decode_consumes f).1 _ _ _ hr
            simp only [List.length_cons] at hcons
            apply ih2
            omega
    · intro input acc hle
      cases input with
      | nil =>
        intro heq
        simp [decodeDictFuel] at heq
      | cons b bt =>
        rw [decodeDictFuel_succ]
        by_cases hb : b = 101
        · rw [if_pos hb]
          simp
        · rw [if_neg hb]
          simp only [List.length_cons] at hle
          rcases hr : fromBytesFuel f (b :: bt) with _ | _ | msg | ⟨rest', key⟩
          · simp
          · exact absurd hr (ih1 _ (by simp only [List.length_cons]; omega))
          · simp
          · simp only []
            have hcons := (decode_consumes f).1 _ _ _ hr
            simp only [List.length_cons] at hcons
            rcases hr2 : fromBytesFuel f rest' with _ | _ | msg2 | ⟨rest'', v'⟩
            · simp
            · exact absurd hr2 (ih1 _ (by omega))
            · simp
            · simp only []
              have hcons2 := (decode_consumes f).1 _ _ _ hr2
              cases key with
              | byteString kbs =>
                simp only []
                apply ih3
                omega
              | integer n => simp
              | list values => simp
              | dictionary entries => simp

/-- The fuel budget used by `from_bytes` never runs out: the fueled model
computes the same result as the Rust recursion on every input. -/
theorem from_bytes_no_outOfFuel (input : Bytes) :
    BencodeValue.from_bytes input ≠ .outOfFuel := by
  unfold BencodeValue.from_bytes
  exact (decode_fuel_sufficient _).1 input (by omega)

/-! ### Lookup in the insertion-built dictionary -/

theorem lookupEntry_insertSorted :
    ∀ (m : List (Bytes × BencodeValue)) (k' : Bytes) (v : BencodeValue) (k : Bytes),
      lookupEntry (insertSorted m k' v) k = if k = k' then some v else lookupEntry m k := by
  intro m
  induction m with
  | nil =>
    intro k' v k
    simp [insertSorted, lookupEntry]
  | cons p rest ih =>
    intro k' v k
    obtain ⟨k0, v0⟩ := p
    simp only [insertSorted]
    by_cases h1 : ltBytes k' k0 = true
    · rw [if_pos h1]
      rfl
    · rw [if_neg h1]
      by_cases h2 : k' = k0
      · rw [if_pos h2]
        subst h2
        simp only [lookupEntry]
        by_cases h3 : k = k'
        · simp [h3]
        · simp [h3]
      · rw [if_neg h2]
        simp only [lookupEntry]
        by_cases h3 : k = k0
        · have hne : ¬ k = k' := by
            intro e
            exact h2 (by rw [← e, h3])
          have hne' : ¬ k0 = k' := fun e => hne (h3.trans e)
          simp [h3, hne']
        · rw [if_neg h3, ih, if_neg h3]

theorem lookupEntry_foldl_insert :
    ∀ (entries m : List (Bytes × BencodeValue)) (k : Bytes),
      lookupEntry (entries.foldl (fun m p => insertSorted m p.1 p.2) m) k =
        (match lastOccurrence entries k with
         | some v => some v
         | none => lookupEntry m k) := by
  intro entries
  induction entries with
  | nil =>
    intro m k
    simp [lastOccurrence]
  | cons p rest ih =>
    intro m k
    obtain ⟨k0, v0⟩ := p
    rw [List.foldl_cons]
    dsimp only
    rw [ih]
    simp only [lastOccurrence]
    rcases hl : lastOccurrence rest k with _ | v
    · simp only []
      rw [lookupEntry_insertSorted]
      by_cases h3 : k = k0
      · simp [h3]
      · simp [h3]
    · rfl

/-! ### Claim theorems for the bencode codec -/

/-- C1: for every `BencodeValue` that `from_bytes` produces from some input,
encoding it with `to_bytes` and decoding the encoded bytes yields exactly the
value with an empty remainder. -/
theorem bencode_decode_encode_roundtrip (input rest : Bytes) (v : BencodeValue)
    (h : BencodeValue.from_bytes input = .ok rest v) :
    BencodeValue.from_bytes (BencodeValue.to_bytes v) = .ok [] v := by
  have hwf : wfValue v = true := by
    unfold BencodeValue.from_bytes at h
    exact (decode_wf_fuel _).1 _ _ _ h
  unfold BencodeValue.from_bytes
  have hmain := (decode_encode_fuel (2 * (BencodeValue.to_bytes v).length + 2)).1 v []
    hwf (by omega)
  simpa using hmain

/-- Witness for C1 at the concrete input `"l4:spami-42ee"`. -/
theorem bencode_decode_encode_roundtrip_witness :
    BencodeValue.from_bytes [108, 52, 58, 115, 112, 97, 109, 105, 45, 52, 50, 101, 101] =
      .ok [] (.list [.byteString [115, 112, 97, 109], .integer (-42)]) ∧
    BencodeValue.from_bytes
        (BencodeValue.to_bytes (.list [.byteString [115, 112, 97, 109], .integer (-42)])) =
      .ok [] (.list [.byteString [115, 112, 97, 109], .integer (-42)]) :=
  ⟨rfl, bencode_decode_encode_roundtrip
    [108, 52, 58, 115, 112, 97, 109, 105, 45, 52, 50, 101, 101] []
    (.list [.byteString [115, 112, 97, 109], .integer (-42)]) rfl⟩

/-- C4: on empty input `from_bytes` does not return the spec's distinct
"empty input" error: it panics, because `input[0]` is evaluated before any
length check (`src/bencode.rs:64`). -/
theorem from_bytes_empty_input_panics : BencodeValue.from_bytes [] = .panic := rfl

/-- C10: decoding a dictionary whose key sequence repeats a key succeeds with
no duplicate-key error, and the resulting map takes the value of the last
occurrence of the repeated key (earlier occurrences are overwritten by
`BTreeMap::insert`). -/
theorem duplicate_keys_last_wins (entries : List (Bytes × BencodeValue)) (k : Bytes)
    (hwf : wfEntryVals entries = true)
    (_hdup : 2 ≤ entries.countP (fun p => decide (p.1 = k))) :
    BencodeValue.from_bytes (100 :: (toBytesEntries entries ++ [101])) =
      .ok [] (.dictionary (entries.foldl (fun m p => insertSorted m p.1 p.2) [])) ∧
    lookupEntry (entries.foldl (fun m p => insertSorted m p.1 p.2) []) k =
      lastOccurrence entries k := by
  constructor
  · unfold BencodeValue.from_bytes
    have hsucc : 2 * (100 :: (toBytesEntries entries ++ [101])).length + 2 =
        (2 * (100 :: (toBytesEntries entries ++ [101])).length + 1) + 1 := by omega
    rw [hsucc, fromBytesFuel_succ, if_neg (by decide), if_neg (by decide), if_neg (by decide),
      if_pos rfl]
    have hlen : (100 :: (toBytesEntries entries ++ [101])).length =
        (toBytesEntries entries).length + 2 := by
      simp
    exact (decode_encode_fuel _).2.2 entries [] [] hwf (by omega)
  · rw [lookupEntry_foldl_insert]
    rcases hl : lastOccurrence entries k with _ | v
    · rfl
    · rfl

/-- Witness for C10 at the concrete input `"d1:ai1e1:ai2ee"` (key `"a"`
twice). -/
theorem duplicate_keys_last_wins_witness :
    wfEntryVals [([97], BencodeValue.integer 1), ([97], BencodeValue.integer 2)] = true ∧
    2 ≤ List.countP (fun p => decide (p.1 = [97]))
        [([97], BencodeValue.integer 1), ([97], BencodeValue.integer 2)] ∧
    (BencodeValue.from_bytes (100 ::
        (toBytesEntries [([97], BencodeValue.integer 1), ([97], BencodeValue.integer 2)] ++
        [101])) =
      .ok [] (.dictionary
        ([([97], BencodeValue.integer 1), ([97], BencodeValue.integer 2)].foldl
          (fun m p => insertSorted m p.1 p.2) [])) ∧
    lookupEntry
        ([([97], BencodeValue.integer 1), ([97], BencodeValue.integer 2)].foldl
          (fun m p => insertSorted m p.1 p.2) []) [97] =
      lastOccurrence [([97], BencodeValue.integer 1), ([97], BencodeValue.integer 2)] [97]) :=
  ⟨by simp [wfEntryVals, wfValue], by simp,
    duplicate_keys_last_wins _ _ (by simp [wfEntryVals, wfValue]) (by simp)⟩

/-! ### Claim theorems for the metainfo view and the tracker client -/

/-- C2: `info_hash` is (the hex rendering of) the SHA-1 digest of the
canonical bencode encoding of the dictionary with exactly the keys `length`,
`name`, `piece length`, `pieces` in ascending raw-byte order, values taken
from the metainfo view; and that key order is indeed ascending.  The digest
function is the external `sha1` crate, universally quantified. -/
theorem info_hash_canonical (sha1 : Bytes → Bytes) (t : Torrent) :
    Torrent.info_hash sha1 t =
      hexEncode (sha1 (BencodeValue.to_bytes (.dictionary (specInfoEntries t)))) ∧
    keysSortedAsc (specInfoEntries t) = true :=
  ⟨rfl, rfl⟩

theorem concatMapB_map (f : Nat → Bytes) (g : Nat → Nat) :
    ∀ l : List Nat, concatMapB f (l.map g) = concatMapB (fun x => f (g x)) l := by
  intro l
  induction l with
  | nil => rfl
  | cons x xs ih => simp [concatMapB, ih]

theorem hexEncode_cons (b : Nat) (rest : Bytes) :
    hexEncode (b :: rest) = hexDigit (b / 16) :: hexDigit (b % 16) :: hexEncode rest := by
  simp [hexEncode, concatMapB]

theorem urlEncode_general :
    ∀ (digest : Bytes) (n : Nat), digest.length = n →
      concatMapB (fun i => [37, (hexEncode digest).getD (2 * i) 0,
        (hexEncode digest).getD (2 * i + 1) 0]) (List.range n) = percentEncodeBytes digest := by
  intro digest
  induction digest with
  | nil =>
    intro n h
    have : n = 0 := by simpa using h.symm
    subst this
    simp [concatMapB, percentEncodeBytes]
  | cons b rest ih =>
    intro n h
    have hn : n = rest.length + 1 := by simpa using h.symm
    subst hn
    rw [List.range_succ_eq_map]
    simp only [concatMapB, concatMapB_map]
    have hfun : (fun i => [37, (hexEncode (b :: rest)).getD (2 * Nat.succ i) 0,
        (hexEncode (b :: rest)).getD (2 * Nat.succ i + 1) 0]) =
        (fun i => [37, (hexEncode rest).getD (2 * i) 0,
          (hexEncode rest).getD (2 * i + 1) 0]) := by
      funext i
      rw [hexEncode_cons]
      have e1 : 2 * Nat.succ i = 2 * i + 1 + 1 := by omega
      rw [e1, List.getD_cons_succ, List.getD_cons_succ, List.getD_cons_succ,
        List.getD_cons_succ]
    rw [hfun, ih rest.length rfl, hexEncode_cons]
    simp only [List.getD_cons_zero, List.getD_cons_succ]
    simp [percentEncodeBytes, concatMapB]

/-- C3: the `info_hash` query value that `get_peers` builds from the hex form
of the digest is exactly the percent-encoding of the raw 20-byte digest: `%`
followed by each byte's two hex digits (not a percent-encoding of the
40-character hex string). -/
theorem info_hash_percent_encoding (digest : Bytes) (h : digest.length = 20) :
    urlEncodedInfoHash (hexEncode digest) = percentEncodeBytes digest := by
  unfold urlEncodedInfoHash
  exact urlEncode_general digest 20 h

/-- Witness for C3 at a concrete 20-byte digest. -/
theorem info_hash_percent_encoding_witness :
    (List.range 20).length = 20 ∧
    urlEncodedInfoHash (hexEncode (List.range 20)) = percentEncodeBytes (List.range 20) :=
  ⟨by decide, info_hash_percent_encoding (List.range 20) (by decide)⟩

/-! ### Claim theorems for the peer wire protocol -/

/-- C5: on an inbound frame whose 4-byte length prefix is zero (a keep-alive)
`receive_message` does not ignore the frame: `PeerMessage::decode` indexes
`input[0]` of the empty payload and panics (`src/peer.rs:132`), contradicting
the spec's "keep-alive is ignored". -/
theorem receive_message_keepalive_panics (s : Bytes) :
    receive_message (0 :: 0 :: 0 :: 0 :: s) = .panic := by
  simp [receive_message, u32FromBeBytes, PeerMessage.decode]

/-- C7: an unknown leading tag byte is rejected with an error as the spec
says, but a truncated fixed-payload frame is not an error: decoding a `have`
frame with no payload, a `request` frame with 11 payload bytes, or a `piece`
frame with 7 payload bytes panics on an out-of-bounds index. -/
theorem peer_message_decode_truncated_panics :
    PeerMessage.decode [9] = .error "invalid peer message tag" ∧
    PeerMessage.decode [4] = .panic ∧
    PeerMessage.decode [6, 0, 0, 0, 0, 0, 0, 0, 0, 0, 0, 0] = .panic ∧
    PeerMessage.decode [7, 0, 0, 0, 0, 0, 0, 0] = .panic :=
  ⟨rfl, rfl, rfl, rfl⟩

/-- C6 counterexample: with one block outstanding in `GettingPieces`, a
`choke` message does not make `download_piece` fail: the iteration returns
`continue` with the state unchanged and nothing sent, not an error. -/
theorem choke_getting_pieces_ignored_cx :
    downloadPieceStep (DPConfig.mk 0 16384)
      (DPState.mk .GettingPieces [BlockState.Requested] (List.replicate 16384 0))
      [.Choke] =
      (.continue (DPState.mk .GettingPieces [BlockState.Requested]
        (List.replicate 16384 0)) [], []) := rfl

/-- C6 amended: a `choke` received in the `GettingPieces` state is silently
ignored by the `download_piece` loop: no error is surfaced, nothing is sent,
the state (including block bookkeeping) is unchanged, and the loop keeps
receiving. -/
theorem choke_getting_pieces_ignored (cfg : DPConfig) (st : DPState)
    (inbox : List PeerMessage) (h : st.connState = .GettingPieces) :
    downloadPieceStep cfg st (.Choke :: inbox) = (.continue st [], inbox) := by
  simp [downloadPieceStep, h]

/-- Witness for the amended C6 at a concrete state. -/
theorem choke_getting_pieces_ignored_witness :
    (DPState.mk .GettingPieces [BlockState.Requested, BlockState.None] []).connState =
      PeerConnectionState.GettingPieces ∧
    downloadPieceStep (DPConfig.mk 3 32768)
      (DPState.mk .GettingPieces [BlockState.Requested, BlockState.None] [])
      [.Choke, .Unchoke] =
      (.continue (DPState.mk .GettingPieces [BlockState.Requested, BlockState.None] []) [],
        [.Unchoke]) :=
  ⟨rfl, choke_getting_pieces_ignored _ _ _ rfl⟩

/-- C9: after the download loop, on a hash mismatch (the hex SHA-1 of the
piece buffer differs from the expected piece hash) `download_piece` fails
with the error "incorrect piece hash" and writes nothing to the output
path. -/
theorem piece_hash_mismatch_errors (sha1 : Bytes → Bytes) (info : TorrentInfo)
    (piece_index : Nat) (piece expected : Bytes)
    (hget : info.piece_hashes.get? piece_index = some expected)
    (hne : hexEncode (sha1 piece) ≠ expected) :
    verifyAndWritePiece sha1 info piece_index piece = .error "incorrect piece hash" := by
  simp only [verifyAndWritePiece]
  rw [hget]
  simp only []
  rw [if_pos hne]

/-- Witness for C9: a one-piece torrent whose expected hash differs from the
hash the (stub) digest function produces. -/
theorem piece_hash_mismatch_errors_witness :
    (TorrentInfo.mk 1 [] 1 (List.replicate 20 1)).piece_hashes.get? 0 =
      some (hexEncode (List.replicate 20 1)) ∧
    hexEncode ((fun _ => List.replicate 20 0) ([] : Bytes)) ≠
      hexEncode (List.replicate 20 1) ∧
    verifyAndWritePiece (fun _ => List.replicate 20 0)
      (TorrentInfo.mk 1 [] 1 (List.replicate 20 1)) 0 [] =
      .error "incorrect piece hash" :=
  ⟨rfl, by decide,
    piece_hash_mismatch_errors _ _ _ _ _ rfl (by decide)⟩

/-! ### Counting requested blocks -/

theorem countRequested_of_all_none :
    ∀ l : List BlockState, (∀ s ∈ l, s = BlockState.None) → countRequested l = 0 := by
  intro l
  induction l with
  | nil =>
    intro _
    rfl
  | cons a t ih =>
    intro h
    have ha := h a (List.mem_cons_self _ _)
    subst ha
    simp only [countRequested, List.countP_cons] at ih ⊢
    rw [ih (fun s hs => h s (List.mem_cons_of_mem _ hs))]
    simp

theorem countRequested_markFirst :
    ∀ (w : Nat) (l : List BlockState), (∀ s ∈ l, s = BlockState.None) →
      countRequested (markFirstRequested w l) = min w l.length := by
  intro w
  induction w with
  | zero =>
    intro l h
    simp [markFirstRequested, countRequested_of_all_none l h]
  | succ w ih =>
    intro l h
    cases l with
    | nil => simp [markFirstRequested, countRequested]
    | cons a t =>
      simp only [markFirstRequested, countRequested, List.countP_cons]
      have := ih t (fun s hs => h s (List.mem_cons_of_mem _ hs))
      simp only [countRequested] at this
      rw [this]
      simp only [List.length_cons]
      simp
      omega

theorem countRequested_pos :
    ∀ (l : List BlockState) (i : Nat),
      l.getD i BlockState.None = BlockState.Requested → 1 ≤ countRequested l := by
  intro l
  induction l with
  | nil =>
    intro i h
    simp [List.getD] at h
  | cons a t ih =>
    intro i h
    cases i with
    | zero =>
      simp only [List.getD_cons_zero] at h
      subst h
      simp [countRequested, List.countP_cons]
    | succ j =>
      simp only [List.getD_cons_succ] at h
      have hih := ih j h
      simp only [countRequested] at hih
      simp only [countRequested, List.countP_cons]
      omega

theorem countRequested_set_downloaded :
    ∀ (l : List BlockState) (i : Nat),
      l.getD i BlockState.None = BlockState.Requested →
      countRequested (l.set i BlockState.Downloaded) = countRequested l - 1 := by
  intro l
  induction l with
  | nil =>
    intro i h
    simp [List.getD] at h
  | cons a t ih =>
    intro i h
    cases i with
    | zero =>
      simp only [List.getD_cons_zero] at h
      subst h
      simp [countRequested, List.countP_cons, List.set]
    | succ j =>
      simp only [List.getD_cons_succ] at h
      have hpos := countRequested_pos t j h
      have hset := ih j h
      simp only [countRequested] at hpos hset
      simp only [List.set_cons_succ, countRequested, List.countP_cons]
      rw [hset]
      by_cases ha : a = BlockState.Requested
      · subst ha
        simp
        try omega
      · have hna : ¬ (decide (a = BlockState.Requested) = true) := by simpa using ha
        simp [hna]
        try omega

theorem countRequested_set_requested_le :
    ∀ (l : List BlockState) (j : Nat),
      countRequested (l.set j BlockState.Requested) ≤ countRequested l + 1 := by
  intro l
  induction l with
  | nil =>
    intro j
    simp [countRequested]
  | cons a t ih =>
    intro j
    cases j with
    | zero =>
      simp only [List.set_cons_zero, countRequested, List.countP_cons]
      by_cases ha : a = BlockState.Requested
      · subst ha
        simp
      · have hna : ¬ (decide (a = BlockState.Requested) = true) := by simpa using ha
        simp [hna]
    | succ i =>
      simp only [List.set_cons_succ, countRequested, List.countP_cons]
      have hih := ih i
      simp only [countRequested] at hih
      omega

/-- Evaluation of the `GettingPieces` iteration of the 7-block counterexample
run, stated for an arbitrary piece buffer of the right length so that the
concrete 98305-byte buffer never has to be normalised. -/
theorem downloadPieceStep_c8_second (p : Bytes) (hp : p.length = 98305) :
    downloadPieceStep c8Config
      (DPState.mk .GettingPieces
        [BlockState.Requested, BlockState.Requested, BlockState.Requested,
         BlockState.Requested, BlockState.Requested, BlockState.None, BlockState.None]
        p) c8Inbox =
      (.continue (DPState.mk .GettingPieces
          [BlockState.Requested, BlockState.Requested, BlockState.Requested,
           BlockState.Requested, BlockState.Requested, BlockState.Requested,
           BlockState.Downloaded]
          (p.take 98304 ++ [42] ++ p.drop 98305))
        [requestFor c8Config 5], []) := by
  have hset6 : ([BlockState.Requested, BlockState.Requested, BlockState.Requested,
      BlockState.Requested, BlockState.Requested, BlockState.None,
      BlockState.None] : List BlockState).set 6 BlockState.Downloaded =
      [BlockState.Requested, BlockState.Requested, BlockState.Requested,
       BlockState.Requested, BlockState.Requested, BlockState.None,
       BlockState.Downloaded] := rfl
  have hf : ([BlockState.Requested, BlockState.Requested, BlockState.Requested,
      BlockState.Requested, BlockState.Requested, BlockState.None,
      BlockState.Downloaded] : List BlockState).findIdx?
      (fun s => s = BlockState.None) = some 5 := rfl
  have hset5 : ([BlockState.Requested, BlockState.Requested, BlockState.Requested,
      BlockState.Requested, BlockState.Requested, BlockState.None,
      BlockState.Downloaded] : List BlockState).set 5 BlockState.Requested =
      [BlockState.Requested, BlockState.Requested, BlockState.Requested,
       BlockState.Requested, BlockState.Requested, BlockState.Requested,
       BlockState.Downloaded] := rfl
  simp [downloadPieceStep, c8Config, c8Inbox, DPConfig.block_count, DPConfig.last_block_len,
    div_round_up, BLOCK_LEN, blockLenFor, hp, hset6, hf, hset5]

/-! ### Claim theorems for the request pipeline -/

/-- C8 counterexample: a 7-block piece, the 5 initial requests issued by the
`ReadyToRequest` iteration, then one inbound `piece` frame carrying block 6 —
a block the client never requested.  The next iteration marks block 6
`Downloaded` and issues a request for block 5, leaving six blocks
simultaneously in state `Requested`: the count exceeds the window W = 5. -/
theorem pipeline_window_exceeded_cx :
    downloadPieceStep c8Config (c8Config.initState .ReadyToRequest) c8Inbox =
      (.continue (DPState.mk .GettingPieces
          [BlockState.Requested, BlockState.Requested, BlockState.Requested,
           BlockState.Requested, BlockState.Requested, BlockState.None, BlockState.None]
          (List.replicate c8Config.piece_length 0))
        (initialRequests c8Config), c8Inbox) ∧
    stepResultRequestedCount
        (downloadPieceStep c8Config
          (DPState.mk .GettingPieces
            [BlockState.Requested, BlockState.Requested, BlockState.Requested,
             BlockState.Requested, BlockState.Requested, BlockState.None, BlockState.None]
            (List.replicate c8Config.piece_length 0))
          c8Inbox).1 = 6 := by
  constructor
  · rfl
  · rw [downloadPieceStep_c8_second (List.replicate c8Config.piece_length 0)
      (by rw [List.length_replicate]; rfl)]
    rfl

/-- C8 amended: the `ReadyToRequest` arm issues exactly
`min(block_count, 5)` initial requests (at most 5), and a `GettingPieces`
iteration preserves `countRequested ≤ 5` provided the inbound `piece`
message (when it is for the current piece) addresses a block currently in
state `Requested`.  Without that proviso the count can reach 6
(see the counterexample). -/
theorem pipeline_window_bound :
    (∀ (cfg : DPConfig) (sts : List BlockState) (buf : Bytes) (inbox : List PeerMessage),
      (∀ s ∈ sts, s = BlockState.None) → sts.length = cfg.block_count →
      stepResultRequestedCount
          (downloadPieceStep cfg (DPState.mk .ReadyToRequest sts buf) inbox).1 =
        min cfg.block_count 5 ∧ min cfg.block_count 5 ≤ 5) ∧
    (∀ (cfg : DPConfig) (st : DPState) (msg : PeerMessage) (inbox : List PeerMessage),
      st.connState = .GettingPieces →
      countRequested st.blockStates ≤ 5 →
      (∀ i b blk, msg = PeerMessage.Piece i b blk → i = cfg.piece_index →
        st.blockStates.getD (b / BLOCK_LEN) BlockState.None = BlockState.Requested) →
      stepResultRequestedCount (downloadPieceStep cfg st (msg :: inbox)).1 ≤ 5) := by
  constructor
  · intro cfg sts buf inbox hall hlen
    simp only [downloadPieceStep, stepResultRequestedCount, MAX_CONCURRENT_REQUESTS]
    rw [countRequested_markFirst _ _ hall, hlen]
    constructor
    · omega
    · omega
  · intro cfg st msg inbox hconn hcount hcomp
    cases msg with
    | Piece i b blk =>
      have hreq := hcomp i b blk rfl
      simp only [downloadPieceStep, hconn]
      by_cases hi : i = cfg.piece_index
      · have hreq' := hreq hi
        have hlt : ¬ st.blockStates.length ≤ b / BLOCK_LEN := by
          intro hge
          rw [List.getD_eq_default _ _ hge] at hreq'
          exact BlockState.noConfusion hreq'
        rw [if_neg (by simpa using hi), if_neg hlt]
        have hpos := countRequested_pos _ _ hreq'
        have hdown := countRequested_set_downloaded _ _ hreq'
        by_cases hbuf : st.piece.length < b + blockLenFor cfg (b / BLOCK_LEN) ∨
            blk.length ≠ blockLenFor cfg (b / BLOCK_LEN)
        · rw [if_pos hbuf]
          simp [stepResultRequestedCount]
        · rw [if_neg hbuf]
          rcases hfind : (st.blockStates.set (b / BLOCK_LEN) BlockState.Downloaded).findIdx?
              (fun s => s = BlockState.None) with _ | j
          · simp only []
            by_cases hdone : (st.blockStates.set (b / BLOCK_LEN) BlockState.Downloaded).all
                (fun s => s = BlockState.Downloaded)
            · rw [if_pos hdone]
              simp only [stepResultRequestedCount]
              omega
            · rw [if_neg hdone]
              simp only [stepResultRequestedCount]
              omega
          · simp only [stepResultRequestedCount]
            have hle := countRequested_set_requested_le
              (st.blockStates.set (b / BLOCK_LEN) BlockState.Downloaded) j
            omega
      · rw [if_pos (by simpa using hi)]
        simpa [stepResultRequestedCount] using hcount
    | Choke =>
      simp only [downloadPieceStep, hconn]
      simpa [stepResultRequestedCount] using hcount
    | Unchoke =>
      simp only [downloadPieceStep, hconn]
      simpa [stepResultRequestedCount] using hcount
    | Interested =>
      simp only [downloadPieceStep, hconn]
      simpa [stepResultRequestedCount] using hcount
    | NotInterested =>
      simp only [downloadPieceStep, hconn]
      simpa [stepResultRequestedCount] using hcount
    | Have index =>
      simp only [downloadPieceStep, hconn]
      simpa [stepResultRequestedCount] using hcount
    | Bitfield bytes =>
      simp only [downloadPieceStep, hconn]
      simpa [stepResultRequestedCount] using hcount
    | Request index begin_ length =>
      simp only [downloadPieceStep, hconn]
      simpa [stepResultRequestedCount] using hcount
    | Cancel index begin_ length =>
      simp only [downloadPieceStep, hconn]
      simpa [stepResultRequestedCount] using hcount

/-- Witness for the amended C8: both parts applied at concrete two-block
states. -/
theorem pipeline_window_bound_witness :
    ((∀ s ∈ [BlockState.None, BlockState.None], s = BlockState.None) ∧
      ([BlockState.None, BlockState.None] : List BlockState).length =
        (DPConfig.mk 0 32768).block_count ∧
      stepResultRequestedCount
          (downloadPieceStep (DPConfig.mk 0 32768)
            (DPState.mk .ReadyToRequest [BlockState.None, BlockState.None] []) []).1 =
        min (DPConfig.mk 0 32768).block_count 5 ∧
      min (DPConfig.mk 0 32768).block_count 5 ≤ 5) ∧
    ((DPState.mk .GettingPieces [BlockState.Requested, BlockState.Requested]
        (List.replicate 32768 0)).connState = PeerConnectionState.GettingPieces ∧
      countRequested (DPState.mk .GettingPieces
        [BlockState.Requested, BlockState.Requested]
        (List.replicate 32768 0)).blockStates ≤ 5 ∧
      stepResultRequestedCount
          (downloadPieceStep (DPConfig.mk 0 32768)
            (DPState.mk .GettingPieces [BlockState.Requested, BlockState.Requested]
              (List.replicate 32768 0))
            [PeerMessage.Piece 0 0 (List.replicate 16384 7)]).1 ≤ 5) := by
  refine ⟨⟨by decide, by decide, ?_⟩, rfl, by decide, ?_⟩
  · exact pipeline_window_bound.1 (DPConfig.mk 0 32768)
      [BlockState.None, BlockState.None] [] [] (by decide) (by decide)
  · refine pipeline_window_bound.2 (DPConfig.mk 0 32768)
      (DPState.mk .GettingPieces [BlockState.Requested, BlockState.Requested]
        (List.replicate 32768 0))
      (PeerMessage.Piece 0 0 (List.replicate 16384 7)) [] rfl (by decide) ?_
    intro i b blk he hi
    injection he with e1 e2 e3
    subst e1
    subst e2
    rfl

end BitTorrent
